import Mathlib

/-!
Verification of the wiggle patch utility against its specification.

This file shallowly embeds the relevant parts of the C sources
(split.c, diff.c, extract.c, merge2.c, utils.c) as executable Lean
definitions and proves or refutes the spec claims about them.

Bytes are modelled as `Nat` (values 0..255); streams as `List Nat`.
C `int` values are modelled as `Int` wherever C subtraction or
negative values can occur.  The loader (load.c) always NUL-terminates
a stream (`body[len] = 0`), which is modelled by reading byte 0 at
any offset at or beyond the stream length.
-/

namespace Wiggle

/-! ## Byte-level helpers -/

/-- Reading a byte of stream `s` at offset `i`; offsets at or past the
end read the NUL terminator that load.c appends (`body[len] = 0`). -/
def byteAt (s : List Nat) (i : Nat) : Nat :=
  if h : i < s.length then s.get ⟨i, h⟩ else 0

/-- C `isspace` on a byte (C locale): space, \t, \n, \v, \f, \r. -/
def isWS (b : Nat) : Bool :=
  b == 32 || b == 9 || b == 10 || b == 11 || b == 12 || b == 13

/-- C `isalnum` on a byte (C locale). -/
def isAlnum (b : Nat) : Bool :=
  (48 ≤ b && b ≤ 57) || (65 ≤ b && b ≤ 90) || (97 ≤ b && b ≤ 122)

/-! ## extract.c : split_patch

`split_patch` walks the input line by line with a four-state machine
(state 0: outside a hunk, 1/2: first/second half of a context hunk,
3: unified hunk body) and copies hunk body lines into two synthetic
streams r1/r2, writing a 20-byte sentinel at each hunk header.
-/

/-- `skip_eol` (extract.c): drop bytes up to and including the first
newline. -/
def dropEol : List Nat → List Nat
  | [] => []
  | x :: t => if x = 10 then t else dropEol t

/-- The bytes that `copyline` (extract.c) copies: everything up to and
including the first newline. -/
def takeEol : List Nat → List Nat
  | [] => []
  | x :: t => if x = 10 then [x] else x :: takeEol t

/-! ### A model of the sscanf patterns used by split_patch

C `sscanf` operates on the NUL-terminated string starting at the
current position, so the scanners below run on the byte list truncated
at the first NUL.  A whitespace character in a format string skips any
run of whitespace; `%s` skips whitespace then reads a non-empty
maximal non-whitespace token; `%d` skips whitespace then reads an
optionally-signed non-empty digit string.  `sscanf(...) == 2` is true
exactly when the first two conversions succeed; literal text after the
last conversion is irrelevant to the comparison.  -/

/-- Truncate at the first NUL byte: the portion of the remaining input
that sscanf can see. -/
def cstr (xs : List Nat) : List Nat := xs.takeWhile (fun b => b ≠ 0)

/-- Skip a run of whitespace (a whitespace directive in a format). -/
def skipWS (xs : List Nat) : List Nat := xs.dropWhile (fun b => isWS b)

/-- Match one literal byte. -/
def lit (b : Nat) (xs : List Nat) : Option (List Nat) :=
  match xs with
  | [] => none
  | x :: t => if x = b then some t else none

/-- The `%s` conversion: skip whitespace, then read a non-empty
maximal non-whitespace token. -/
def scanTok (xs : List Nat) : Option (List Nat × List Nat) :=
  let ys := skipWS xs
  let tok := ys.takeWhile (fun b => !isWS b)
  if tok.isEmpty then none
  else some (tok, ys.dropWhile (fun b => !isWS b))

/-- Digits to a natural number (most significant first). -/
def digitsVal (ds : List Nat) : Nat :=
  ds.foldl (fun acc d => acc * 10 + (d - 48)) 0

/-- The `%d` conversion: skip whitespace, optional sign, then a
non-empty digit string. -/
def scanInt (xs : List Nat) : Option (Int × List Nat) :=
  let ys := skipWS xs
  match ys with
  | [] => none
  | c :: t =>
    if c = 45 then
      let ds := t.takeWhile (fun b => 48 ≤ b && b ≤ 57)
      if ds.isEmpty then none
      else some (-(digitsVal ds : Int), t.dropWhile (fun b => 48 ≤ b && b ≤ 57))
    else if c = 43 then
      let ds := t.takeWhile (fun b => 48 ≤ b && b ≤ 57)
      if ds.isEmpty then none
      else some ((digitsVal ds : Int), t.dropWhile (fun b => 48 ≤ b && b ≤ 57))
    else
      let ds := ys.takeWhile (fun b => 48 ≤ b && b ≤ 57)
      if ds.isEmpty then none
      else some ((digitsVal ds : Int), ys.dropWhile (fun b => 48 ≤ b && b ≤ 57))

/-- `sscanf(cp, "@@ -%s +%s @@", before, after) == 2`: returns the two
tokens when both `%s` conversions succeed. -/
def scanUnifiedHdr (xs : List Nat) : Option (List Nat × List Nat) := do
  let r1 ← lit 64 xs      -- @
  let r2 ← lit 64 r1      -- @
  let r3 ← lit 45 (skipWS r2)  -- (format space) -
  let (t1, r4) ← scanTok r3
  let r5 ← lit 43 (skipWS r4)  -- (format space) +
  let (t2, _) ← scanTok r5
  some (t1, t2)

/-- `sscanf(s, "%d,%d", &x, &y) == 2` on a token. -/
def scanIntPair (xs : List Nat) : Option (Int × Int) := do
  let (x, r1) ← scanInt xs
  let r2 ← lit 44 r1      -- ,
  let (y, _) ← scanInt r2
  some (x, y)

/-- `sscanf(cp, "*** %d,%d ****", &a, &b) == 2` (the trailing literal
stars are not needed for the comparison to hold). -/
def scanCtx1 (xs : List Nat) : Option (Int × Int) := do
  let r1 ← lit 42 xs      -- *
  let r2 ← lit 42 r1
  let r3 ← lit 42 r2
  scanIntPair (skipWS r3)

/-- `sscanf(cp, "--- %d,%d ----", &c, &d) == 2`. -/
def scanCtx2 (xs : List Nat) : Option (Int × Int) := do
  let r1 ← lit 45 xs      -- -
  let r2 ← lit 45 r1
  let r3 ← lit 45 r2
  scanIntPair (skipWS r3)

/-- Decimal digit characters of a natural number. -/
def natDecCh (n : Nat) : List Nat := (Nat.toDigits 10 n).map Char.toNat

/-- Decimal character representation of a C int as printf prints it. -/
def intDecCh (n : Int) : List Nat :=
  if n < 0 then 45 :: natDecCh n.natAbs else natDecCh n.natAbs

/-- `"%5d"`: right-justify in a field of width 5, padding with spaces. -/
def fmt5 (n : Int) : List Nat :=
  List.replicate (5 - (intDecCh n).length) 32 ++ intDecCh n

/-- The 20 bytes that split_patch copies out of `buf` after
`buf[0] = 0; sprintf(buf+1, "%5d %5d %5d\n", chunks, x, y);`.
sprintf appends a NUL after the newline; exactly 20 bytes are copied
into the output stream. -/
def mkSentinel (chunks : Nat) (x y : Int) : List Nat :=
  List.take 20
    (0 :: (fmt5 (chunks : Int) ++ [32] ++ fmt5 x ++ [32] ++ fmt5 y ++ [10, 0]))

/-- Result of split_patch: a parse failure (the C function prints a
diagnostic naming the input line and returns 0 with both output
streams left NULL), the final `r1.len > f.len || r2.len > f.len`
abort, or the two synthetic streams plus the chunk count. -/
inductive SplitRes where
  | fail (lineno : Nat)
  | overrun (r1len r2len : Nat)
  | ok (r1 r2 : List Nat) (chunks : Nat)
  deriving Repr, DecidableEq

/-- The value the C function returns: 0 on parse failure, the chunk
count otherwise (on the abort path no value is returned; 0 is used
here as a placeholder for a process abort). -/
def splitRetval : SplitRes → Nat
  | SplitRes.fail _ => 0
  | SplitRes.overrun _ _ => 0
  | SplitRes.ok _ _ c => c

/-- Mutable state of the split_patch loop. -/
structure PSt where
  state : Nat
  chunks : Nat
  acnt : Int
  bcnt : Int
  va : Int
  vb : Int
  vc : Int
  vd : Int
  lineno : Nat
  r1 : List Nat
  r2 : List Nat
  deriving Repr

/-- `sscanf(s, "%d,%d", &x, &y) == 2 ? (x,y) : (sscanf(s, "%d", &x) == 1 ? (x,1) : fail)`
— the two-stage parse split_patch applies to each side of a unified
hunk header. -/
def scanRange (tok : List Nat) : Option (Int × Int) :=
  match scanIntPair tok with
  | some (x, y) => some (x, y)
  | none =>
    match scanInt tok with
    | some (x, _) => some (x, 1)
    | none => none

/-- The header-recognition part of state 0: try the unified pattern,
then the two context patterns, updating the state machine
accordingly. -/
def state0Hdr (st : PSt) (cs : List Nat) : PSt :=
  match scanUnifiedHdr cs with
  | some (tb, ta) =>
    match scanRange tb, scanRange ta with
    | some (a, b), some (c, d) =>
      { st with state := 3, va := a, vb := b, vc := c, vd := d,
                acnt := b, bcnt := d }
    | _, _ => { st with state := 0 }
  | none =>
    match scanCtx1 cs with
    | some (a, b) =>
      { st with state := 1, va := a, vb := b, acnt := b - a + 1 }
    | none =>
      match scanCtx2 cs with
      | some (c, d) =>
        { st with state := 2, vc := c, vd := d, bcnt := d - c + 1 }
      | none => st

/-- Sentinel emission, first half: on entering state 1 or 3, count a
new chunk and write its sentinel to r1. -/
def state0Emit1 (st : PSt) : PSt :=
  if st.state = 1 || st.state = 3 then
    { st with chunks := st.chunks + 1,
              r1 := st.r1 ++ mkSentinel (st.chunks + 1) st.va st.acnt }
  else st

/-- Sentinel emission, second half: on entering state 2 or 3, write a
sentinel (numbered with the current chunk count) to r2. -/
def state0Emit2 (st : PSt) : PSt :=
  if st.state = 2 || st.state = 3 then
    { st with r2 := st.r2 ++ mkSentinel st.chunks st.vc st.bcnt }
  else st

/-- The sentinel-emission part of state 0 (extract.c lines 116-130). -/
def state0Emit (st : PSt) : PSt := state0Emit2 (state0Emit1 st)

/-- One state-0 step of split_patch: try the three header patterns on
the NUL-truncated remaining input, consume the line, and emit
sentinels according to the state entered. -/
def state0Step (st : PSt) (rest : List Nat) : PSt × List Nat :=
  (state0Emit (state0Hdr st (cstr rest)), dropEol rest)

/-- State 1/2 of split_patch (context-hunk body lines): the line must
start with one of `space ! - +` followed by a space; the rest of the
line is copied and the remaining-line counter decremented; the state
returns to 0 when the counter hits 0 exactly.  `None` is the parse
error path.  The caller stores the copied line into r1 (state 1) or
r2 (state 2). -/
def ctxLineOk (rest : List Nat) : Bool :=
  let c0 := byteAt rest 0
  let c1 := byteAt rest 1
  (c0 = 32 || c0 = 33 || c0 = 45 || c0 = 43) && c1 = 32

/-- State-1 transition (context first half). -/
def state1Step (st : PSt) (rest : List Nat) : PSt :=
  let st := { st with r1 := st.r1 ++ takeEol (rest.drop 2), acnt := st.acnt - 1 }
  if st.acnt = 0 then { st with state := 0 } else st

/-- State-2 transition (context second half). -/
def state2Step (st : PSt) (rest : List Nat) : PSt :=
  let st := { st with r2 := st.r2 ++ takeEol (rest.drop 2), bcnt := st.bcnt - 1 }
  if st.bcnt = 0 then { st with state := 0 } else st

/-- State-3 transition (unified hunk body) for a line with a valid
leading character (32 `' '`, 45 `'-'` or 43 `'+'`). -/
def state3Step (st : PSt) (c0 : Nat) (rest : List Nat) : PSt :=
  let st :=
    if c0 = 32 then
      { st with r1 := st.r1 ++ takeEol (rest.drop 1),
                r2 := st.r2 ++ takeEol (rest.drop 1),
                acnt := st.acnt - 1, bcnt := st.bcnt - 1 }
    else if c0 = 45 then
      { st with r1 := st.r1 ++ takeEol (rest.drop 1), acnt := st.acnt - 1 }
    else
      { st with r2 := st.r2 ++ takeEol (rest.drop 1), bcnt := st.bcnt - 1 }
  if st.acnt ≤ 0 && st.bcnt ≤ 0 then { st with state := 0 } else st

/-- The split_patch loop (extract.c lines 79-185).  Each iteration
processes the current line according to the state; parse errors abort
with the line number (the C returns 0 after a diagnostic).  `fuel` is
a structural-recursion bound; each iteration consumes at least one
input byte, so any fuel exceeding the input length is enough
(`splitLoop_fuel_irrelevant`), and the entry point below supplies
such a fuel, making this exactly the C loop. -/
def splitLoop (fuel : Nat) (rest : List Nat) (st : PSt) : SplitRes :=
  match fuel with
  | 0 => SplitRes.fail 0
  | fuel + 1 =>
    if rest = [] then
      SplitRes.ok st.r1 st.r2 st.chunks
    else
      if st.state = 0 then
        splitLoop fuel (state0Step st rest).2
          { (state0Step st rest).1 with lineno := st.lineno + 1 }
      else if st.state = 1 then
        if ctxLineOk rest then
          splitLoop fuel (dropEol (rest.drop 2))
            { state1Step st rest with lineno := st.lineno + 1 }
        else
          SplitRes.fail (st.lineno + 1)
      else if st.state = 2 then
        if ctxLineOk rest then
          splitLoop fuel (dropEol (rest.drop 2))
            { state2Step st rest with lineno := st.lineno + 1 }
        else
          SplitRes.fail (st.lineno + 1)
      else
        -- state 3: unified
        if byteAt rest 0 = 32 || byteAt rest 0 = 45 || byteAt rest 0 = 43 then
          splitLoop fuel (dropEol (rest.drop 1))
            { state3Step st (byteAt rest 0) rest with lineno := st.lineno + 1 }
        else
          SplitRes.fail (st.lineno + 1)

/-- The initial machine state of split_patch. -/
def initPSt : PSt :=
  { state := 0, chunks := 0, acnt := 0, bcnt := 0,
    va := 0, vb := 0, vc := 0, vd := 0, lineno := 0, r1 := [], r2 := [] }

/-- `split_patch` (extract.c): run the machine from state 0, then
apply the final `r1.len > f.len || r2.len > f.len` abort check. -/
def split_patch (f : List Nat) : SplitRes :=
  match splitLoop (f.length + 1) f initPSt with
  | SplitRes.ok r1 r2 c =>
    if r1.length > f.length || r2.length > f.length then
      SplitRes.overrun r1.length r2.length
    else
      SplitRes.ok r1 r2 c
  | r => r

/-- The r1 stream of an `ok` result. -/
def resR1 : SplitRes → List Nat
  | SplitRes.ok r1 _ _ => r1
  | _ => []

/-- A 5-digit zero-padded decimal representation, as claimed by the
spec for the sentinel layout. -/
def zeroPad5 (n : Nat) : List Nat :=
  List.replicate (5 - (natDecCh n).length) 48 ++ natDecCh n

/-- r1 as built by split_patch: a sequence of segments, the `i`-th
(1-based) introduced by a sentinel numbered `i` carrying two values,
followed by the `-`/`' '` body lines copied for that hunk. -/
def renderSegs (k0 : Nat) : List (Int × Int × List Nat) → List Nat
  | [] => []
  | (x, y, body) :: t => mkSentinel (k0 + 1) x y ++ body ++ renderSegs (k0 + 1) t

/-- Append bytes to the body of the last segment. -/
def addBody (extra : List Nat) : List (Int × Int × List Nat) → List (Int × Int × List Nat)
  | [] => []
  | [(x, y, body)] => [(x, y, body ++ extra)]
  | s :: t => s :: addBody extra t

/-- Invariant carried through the split_patch loop: the state is one
of 0..3, r1 is a rendered segment list with exactly `chunks` segments,
and hunk-body states imply at least one segment exists. -/
def SegInv (st : PSt) : Prop :=
  st.state ≤ 3 ∧
  ∃ segs : List (Int × Int × List Nat),
    segs.length = st.chunks ∧ st.r1 = renderSegs 0 segs ∧
    (st.state = 1 ∨ st.state = 3 → 0 < st.chunks)

/-- The concrete patch `"@@ -1,3 +1,3 @@\n a\n-b\n+B\n c\n"`. -/
def c8input : List Nat :=
  [64,64,32,45,49,44,51,32,43,49,44,51,32,64,64,10,
   32,97,10, 45,98,10, 43,66,10, 32,99,10]

/-- The concrete patch `"@@ -1,0 +1,0 @@\n"`: a syntactically valid
unified hunk header announcing an empty hunk. -/
def c10input : List Nat := [64,64,32,45,49,44,48,32,43,49,44,48,32,64,64,10]

/-! ## split.c : the tokenizer

`wiggle_split_internal` walks a NUL-terminated stream and cuts it into
elements (words or lines).  Each element records its start offset, its
canonical length `len`, its printed length `plen` (canonical plus
whitespace absorbed under IgnoreBlanks) and `prefix` (the number of
ignored bytes preceding `start`).  All loops below are structural on a
fuel argument; each is called with fuel `S.length + 1`, which exceeds
the number of iterations the C loop can make (every iteration advances
the scan position, which never exceeds the stream length within a
loop), so the fueled functions coincide with the C loops.
-/

/-- An element (struct elmnt, split.c revision).  The C field `prefix`
is called `pfx` here.  The hash field is omitted: `match` compares
hash, length and bytes, and the hash is a function of the canonical
bytes, so element equality is byte equality. -/
structure Elmnt where
  start : Nat
  len : Nat
  plen : Nat
  pfx : Nat
  deriving Repr, DecidableEq

/-- The mode bits tested by wiggle_split_internal.  `byword` is the
ByMask bit (ByLine = false / ByWord = true); `nonSpace` is a further
mode bit that wiggle_split_internal never examines, so it has no
effect on the result (faithful to the C, which only tests ByMask,
IgnoreBlanks and WholeWord). -/
structure SplitType where
  byword : Bool
  ignoreBlanks : Bool
  wholeWord : Bool
  nonSpace : Bool
  deriving Repr, DecidableEq

/-- space or tab. -/
def isBlank (b : Nat) : Bool := b == 32 || b == 9

/-- space, tab or newline. -/
def isBlankNL (b : Nat) : Bool := b == 32 || b == 9 || b == 10

/-- Lines 63-73: at start-of-line under IgnoreBlanks, skip blank
lines: whole blank lines are accumulated into `prefix` and `start`
moves past each newline.  The loop is bounded by the NUL terminator.
Arguments mirror the C variables `start`, `cp`, `prefix`, `sol`. -/
def skipBlankLines (S : List Nat) : Nat → Nat → Nat → Nat → Bool → Nat × Nat × Bool
  | 0, start, _, pfx, sol => (start, pfx, sol)
  | fuel + 1, start, p, pfx, sol =>
    if isBlankNL (byteAt S p) then
      if byteAt S p = 10 then
        skipBlankLines S fuel (p + 1) (p + 1) (pfx + (p + 1 - start)) true
      else
        skipBlankLines S fuel start (p + 1) pfx false
    else
      (start, pfx, sol)

/-- Lines 75-81: in word mode under IgnoreBlanks, attach a leading run
of space/tab to the prefix. -/
def skipWordBlanks (S : List Nat) : Nat → Nat → Nat → Bool → Nat × Nat × Bool
  | 0, p, pfx, sol => (p, pfx, sol)
  | fuel + 1, p, pfx, sol =>
    if p < S.length && isBlank (byteAt S p) then
      skipWordBlanks S fuel (p + 1) (pfx + 1) false
    else
      (p, pfx, sol)

/-- `strlen` scan: the first offset at or after `p` holding a NUL byte
(the terminator guarantees one at `S.length`). -/
def findNul (S : List Nat) : Nat → Nat → Nat
  | 0, p => p
  | fuel + 1, p => if byteAt S p = 0 then p else findNul S fuel (p + 1)

/-- Lines 90-95 (ByLine): advance to just past the next newline (or to
the end of the stream). -/
def lineEnd (S : List Nat) : Nat → Nat → Nat
  | 0, p => p
  | fuel + 1, p =>
    if p < S.length then
      if byteAt S p = 10 then p + 1 else lineEnd S fuel (p + 1)
    else p

/-- The word-extension do-while loops of ByWord (lines 97-115): after
an unconditional first step, extend while `cond` holds and the end has
not been reached. -/
def wordExtend (S : List Nat) (cond : Nat → Bool) : Nat → Nat → Nat
  | 0, p => p
  | fuel + 1, p =>
    if p < S.length && cond (byteAt S p) then
      wordExtend S cond fuel (p + 1)
    else p

/-- The ByWord word-character predicate: under WholeWord any byte that
is not space/tab/newline continues a word; otherwise alphanumerics and
underscore do. -/
def wordCont (ty : SplitType) (b : Nat) : Bool :=
  (ty.wholeWord && !(b == 32) && !(b == 9) && !(b == 10)) || isAlnum b || b == 95

/-- Lines 121-130: after an element that ended a line, under
IgnoreBlanks, absorb following blank lines into `plen` (scan with
`cp3`, move `cp2` past each newline found). -/
def skipTrailBlank (S : List Nat) : Nat → Nat → Nat → Bool → Nat × Bool
  | 0, cp2, _, sol => (cp2, sol)
  | fuel + 1, cp2, cp3, sol =>
    if isBlankNL (byteAt S cp3) then
      if byteAt S cp3 = 10 then
        skipTrailBlank S fuel (cp3 + 1) (cp3 + 1) true
      else
        skipTrailBlank S fuel cp2 (cp3 + 1) false
    else
      (cp2, sol)

/-- Lines 131-141: in word mode under IgnoreBlanks, extend `plen` over
trailing blanks up to and including one newline. -/
def extTrail (S : List Nat) : Nat → Nat → Bool → Nat × Bool
  | 0, cp2, sol => (cp2, sol)
  | fuel + 1, cp2, sol =>
    if cp2 < S.length && isBlankNL (byteAt S cp2) then
      if byteAt S cp2 = 10 then (cp2 + 1, true)
      else extTrail S fuel (cp2 + 1) false
    else
      (cp2, sol)

/-- Lines 63-74: at start-of-line under IgnoreBlanks, the blank-line
skipping pass (no-op otherwise); returns (start, prefix, sol). -/
def phaseA (S : List Nat) (ty : SplitType) (start0 : Nat) (sol0 : Bool) :
    Nat × Nat × Bool :=
  if sol0 && ty.ignoreBlanks then
    skipBlankLines S (S.length + 1) start0 start0 0 sol0
  else (start0, 0, sol0)

/-- Lines 63-82: the prefix-collecting phases (blank-line skipping at
start-of-line, then word-mode leading blanks); returns the element's
`start`, its `prefix`, and the updated `sol`. -/
def phaseAB (S : List Nat) (ty : SplitType) (start0 : Nat) (sol0 : Bool) :
    Nat × Nat × Bool :=
  if ty.byword && ty.ignoreBlanks then
    skipWordBlanks S (S.length + 1) (phaseA S ty start0 sol0).1
      (phaseA S ty start0 sol0).2.1 (phaseA S ty start0 sol0).2.2
  else phaseA S ty start0 sol0

/-- Lines 97-115: the ByWord scan from `start`: a space/tab run, a
word-character run (with the WholeWord variant), or a single byte. -/
def wordScan (S : List Nat) (ty : SplitType) (start : Nat) : Nat :=
  if isBlank (byteAt S start) then
    wordExtend S isBlank (S.length + 1) (start + 1)
  else if ty.wholeWord || isAlnum (byteAt S start) || byteAt S start == 95 then
    wordExtend S (wordCont ty) (S.length + 1) (start + 1)
  else start + 1

/-- Lines 84-118: the word/line scan itself, producing the end of the
canonical bytes (`cp`) and the updated `sol`. -/
def phaseC (S : List Nat) (ty : SplitType) (start : Nat) (sol : Bool) :
    Nat × Bool :=
  if byteAt S start = 0 && start + 19 < S.length then
    -- special hunk-header word: 19 bytes plus strlen plus one
    (findNul S (S.length + 1) (start + 19) + 1, sol)
  else if !ty.byword then
    (lineEnd S (S.length + 1) start, true)
  else
    (wordScan S ty start, byteAt S (wordScan S ty start - 1) = 10)

/-- Lines 119-130: absorb following blank lines into `plen` after an
element that ended a line (no-op otherwise). -/
def phaseD (S : List Nat) (ty : SplitType) (cp : Nat) (sol : Bool) :
    Nat × Bool :=
  if sol && ty.ignoreBlanks then
    skipTrailBlank S (S.length + 1) cp cp sol
  else (cp, sol)

/-- Lines 119-141: the trailing-absorption phases (blank lines after
an eol element; word-mode trailing blanks), producing `cp2` and the
final `sol`. -/
def phaseDE (S : List Nat) (ty : SplitType) (start cp : Nat) (sol : Bool) :
    Nat × Bool :=
  if ty.byword && ty.ignoreBlanks && !(byteAt S start = 0) && !(byteAt S start = 10) then
    extTrail S (S.length + 1) (phaseD S ty cp sol).1 (phaseD S ty cp sol).2
  else phaseD S ty cp sol

/-- One iteration of the wiggle_split_internal loop: starting at
`start0` (with start-of-line flag `sol0`), produce the element
recorded by this iteration, the next start position (`cp2`) and the
new start-of-line flag. -/
def splitStep (S : List Nat) (ty : SplitType) (start0 : Nat) (sol0 : Bool) :
    Elmnt × Nat × Bool :=
  let ab := phaseAB S ty start0 sol0
  let c := phaseC S ty ab.1 ab.2.2
  let de := phaseDE S ty ab.1 c.1 c.2
  ({ start := ab.1, len := c.1 - ab.1, plen := de.1 - ab.1, pfx := ab.2.1 },
   de.1, de.2)

/-- The wiggle_split_internal loop: collect elements while `start`
is before the end of the stream. -/
def splitGo (S : List Nat) (ty : SplitType) : Nat → Nat → Bool → List Elmnt
  | 0, _, _ => []
  | fuel + 1, start, sol =>
    if start < S.length then
      let r := splitStep S ty start sol
      r.1 :: splitGo S ty fuel r.2.1 r.2.2
    else []

/-- `wiggle_split_internal` (split.c): the element list for a stream,
starting at offset 0 with `sol = 1`.  The fuel `S.length + 1` exceeds
the number of loop iterations, since every iteration advances `start`
(see `splitStep_progress`). -/
def wiggle_split_internal (S : List Nat) (ty : SplitType) : List Elmnt :=
  splitGo S ty (S.length + 1) 0 true

/-- The prefix bytes of an element: the `prefix` bytes immediately
before `start` (printword prints from `start - prefix`). -/
def prefixBytes (S : List Nat) (e : Elmnt) : List Nat :=
  (((S ++ [0]).drop (e.start - e.pfx)).take e.pfx)

/-- The canonical bytes of an element. -/
def canonicalBytes (S : List Nat) (e : Elmnt) : List Nat :=
  (((S ++ [0]).drop e.start).take e.len)

/-- The trailing bytes of an element: from `start + len` up to
`start + plen` (the plen extension). -/
def trailingBytes (S : List Nat) (e : Elmnt) : List Nat :=
  (((S ++ [0]).drop (e.start + e.len)).take (e.plen - e.len))

/-- prefix ++ canonical ++ trailing for every element, concatenated in
order: the reconstruction of the stream that the claim describes
(printword prints exactly `prefix + plen` bytes from
`start - prefix`). -/
def reconstruct (S : List Nat) (ty : SplitType) : List Nat :=
  (wiggle_split_internal S ty).flatMap
    (fun e => prefixBytes S e ++ canonicalBytes S e ++ trailingBytes S e)

/-- A stream with no NUL bytes (what any text file satisfies). -/
def noNul (S : List Nat) : Prop := ∀ b ∈ S, b ≠ 0

/-! ## merge2.c: make_merger

Token files are lists of elements.  An element of a token file carries
its canonical bytes (`start[0..len)`) and the value of `ends_line`
(wiggle.h: `(len == 20 && start[0] == 0) || (len && start[len-1] ==
'\n')`, precomputed and recorded as a field).  All counters of the merge loop
are `Int`, as in the C (`int a, b, c, c1, c2`); the C `assert`s are
modelled by returning `none`. -/

structure MElmnt where
  bytes : List Nat
  endsLine : Bool
  deriving Repr, DecidableEq

def melDefault : MElmnt := ⟨[], false⟩

/-- Indexing a token file at an int position (`f.list[i]`). -/
def fget (f : List MElmnt) (i : Int) : MElmnt := f.getD i.toNat melDefault

/-- `start[0] == 0`: the element is a hunk-header sentinel.  An element
always has at least one canonical byte, so the default for an empty
byte list is immaterial (chosen non-NUL). -/
def isHdr (e : MElmnt) : Bool := e.bytes.headD 1 == 0

/-- `strncmp(x, y, n) == 0`: byte lists agree on the first `n` bytes,
where comparison stops early at a common NUL byte. -/
def strncmpEq : Nat → List Nat → List Nat → Bool
  | 0, _, _ => true
  | _ + 1, [], [] => true
  | _ + 1, [], _ :: _ => false
  | _ + 1, _ :: _, [] => false
  | n + 1, x :: xs, y :: ys =>
    if x ≠ y then false
    else if x = 0 then true
    else strncmpEq n xs ys

/-- The element-comparison loop of check_alreadyapplied: for each
`i < k`, `af.list[a+i]` and `cf.list[c+i]` have the same `len` and
`strncmp` of their bytes is 0. -/
def caLoop (af cf : List MElmnt) (a c : Int) : Int → Nat → Bool
  | _, 0 => true
  | i, k + 1 =>
    let ea := fget af (a + i)
    let ec := fget cf (c + i)
    if ea.bytes.length ≠ ec.bytes.length then false
    else if ¬ (strncmpEq ea.bytes.length ea.bytes ec.bytes = true) then false
    else caLoop af cf a c (i + 1) k

/-- check_alreadyapplied (merge2.c): true iff `al == cl` and the `al`
elements of `af` at `a` are byte-for-byte equal to those of `cf` at
`c` (the caller then retags the merge as AlreadyApplied). -/
def check_alreadyapplied (af cf : List MElmnt) (a c al cl : Int) : Bool :=
  if al ≠ cl then false
  else caLoop af cf a c 0 al.toNat

/-- A common-sequence list entry (struct csl). -/
structure Csl where
  a : Nat
  b : Nat
  len : Nat
  deriving Repr, DecidableEq

/-- `csl[i]`; past-the-end reads yield a zero entry (whose `len == 0`
stops every scan, as the real sentinel does). -/
def cslGet (cs : List Csl) (i : Nat) : Csl := cs.getD i ⟨0, 0, 0⟩

/-- Strict monotonicity of consecutive csl entries. -/
def cslSorted : List Csl → Bool
  | [] => true
  | [_] => true
  | x :: y :: rest =>
    (decide (x.a + x.len ≤ y.a) && decide (x.b + x.len ≤ y.b)) && cslSorted (y :: rest)

/-- A well-formed csl for files of `alen` and `blen` elements: at least
the sentinel entry, the sentinel is last and equals `(alen, blen, 0)`,
every non-sentinel entry has positive length, and entries are
monotone. -/
def validCsl (cs : List Csl) (alen blen : Nat) : Bool :=
  !cs.isEmpty && (cs.getLast? == some ⟨alen, blen, 0⟩) &&
    cs.dropLast.all (fun e => e.len ≠ 0) && cslSorted cs

/-- `while (csl[c1].a + csl[c1].len <= pos && csl[c1].len) c1++;` -/
def cslAdvanceA (cs : List Csl) (pos : Int) : Nat → Nat → Option Nat
  | 0, _ => none
  | fuel + 1, c1 =>
    let e := cslGet cs c1
    if ((e.a : Int) + (e.len : Int) ≤ pos ∧ e.len ≠ 0) then cslAdvanceA cs pos fuel (c1 + 1)
    else some c1

/-- `while (csl[c2].b + csl[c2].len <= pos && csl[c2].len) c2++;` -/
def cslAdvanceB (cs : List Csl) (pos : Int) : Nat → Nat → Option Nat
  | 0, _ => none
  | fuel + 1, c2 =>
    let e := cslGet cs c2
    if ((e.b : Int) + (e.len : Int) ≤ pos ∧ e.len ≠ 0) then cslAdvanceB cs pos fuel (c2 + 1)
    else some c2

inductive MType where
  | End
  | Unmatched
  | Unchanged
  | Extraneous
  | Changed
  | AlreadyApplied
  | Conflict
  deriving Repr, DecidableEq

/-- struct merge.  `lo`/`hi` are only meaningful after
isolate_conflicts; they start as 0. -/
structure Merge where
  type : MType
  oldtype : MType
  a : Int
  b : Int
  c : Int
  c1 : Nat
  c2 : Nat
  al : Int
  bl : Int
  cl : Int
  in_conflict : Nat
  lo : Int
  hi : Int
  deriving Repr, DecidableEq

/-- The mutable locals of the make_merger loop. -/
structure MSt where
  a : Int
  b : Int
  c : Int
  c1 : Nat
  c2 : Nat
  header_checked : Option Nat
  header_found : Option Int
  ignored : Nat
  deriving Repr, DecidableEq

def initMSt : MSt := ⟨0, 0, 0, 0, 0, none, none, 0⟩

/-- `for (j = b; j < upper; j++) if (bf.list[j].start[0] == 0) ...`:
first hunk-header index in `[j, upper)`, `some none` if there is none,
`none` when out of fuel (calling with fuel `(upper - j).toNat` always
suffices). -/
def findHdr (bf : List MElmnt) (upper : Int) : Nat → Int → Option (Option Int)
  | 0, j => if j < upper then none else some none
  | fuel + 1, j =>
    if j < upper then
      if isHdr (fget bf j) then some (some j)
      else findHdr bf upper fuel (j + 1)
    else some none

/-- The header check at the top of the loop body: rescan the current
csl2 range for a hunk header unless it was already checked. -/
def hdrUpd (bf : List MElmnt) (cs2 : List Csl) (st : MSt) : Option MSt :=
  if st.header_checked = some st.c2 then some st
  else
    match findHdr bf (((cslGet cs2 st.c2).a : Int) + ((cslGet cs2 st.c2).len : Int))
        ((((cslGet cs2 st.c2).a : Int) + ((cslGet cs2 st.c2).len : Int)) - st.b).toNat st.b with
    | Option.none => none
    | Option.some hf => some { st with header_found := hf, header_checked := some st.c2 }

/-- `while (newa > a && !ends_line(af.list[newa-1])) newa--;` -/
def backToEol (af : List MElmnt) (a : Int) : Nat → Int → Int
  | 0, newa => newa
  | fuel + 1, newa =>
    if (a < newa ∧ (fget af (newa - 1)).endsLine = false) then backToEol af a fuel (newa - 1)
    else newa

/-- `match1 = (a >= csl1[c1].a && b >= csl1[c1].b)`. -/
def m1ok (cs1 : List Csl) (st : MSt) : Bool :=
  decide (((cslGet cs1 st.c1).a : Int) ≤ st.a) && decide (((cslGet cs1 st.c1).b : Int) ≤ st.b)

/-- `match2 = (b >= csl2[c2].a && c >= csl2[c2].b)`. -/
def m2ok (cs2 : List Csl) (st : MSt) : Bool :=
  decide (((cslGet cs2 st.c2).a : Int) ≤ st.b) && decide (((cslGet cs2 st.c2).b : Int) ≤ st.c)

/-- The merge entry skeleton: position fields from the current state,
lengths filled in per branch. -/
def entryBase (st : MSt) : Merge :=
  ⟨MType.End, MType.End, st.a, st.b, st.c, st.c1, st.c2, 0, 0, 0, 0, 0, 0⟩

/-- The Unmatched endpoint of the `!match1 && match2` branch: walk
`newa` back to a line end when the csl2 range holds a hunk header, and
restore it when nothing would become Unmatched anyway. -/
def newaCalc (af : List MElmnt) (e1 : Csl) (hf : Option Int) (a b : Int) : Int :=
  let newa1 : Int :=
    match hf with
    | Option.some _ => backToEol af a ((e1.a : Int) - a).toNat (e1.a : Int)
    | Option.none => (e1.a : Int)
  if (a = newa1 ∧ b = (e1.b : Int)) then (e1.a : Int) else newa1

/-- The Extraneous endpoint `newb` and the updated `header_checked`
(the header branches force a re-check by resetting it to -1). -/
def newbCalc (e1 e2 : Csl) (hf : Option Int) (hc : Option Nat) (b : Int) : Int × Option Nat :=
  let newb0 : Int := b + min ((e1.b : Int) - b) ((e2.len : Int) - (b - (e2.a : Int)))
  match hf with
  | Option.some h =>
    if h = b then (b + 1, none)
    else if (b < h ∧ h < newb0) then (h, none)
    else (newb0, hc)
  | Option.none => (newb0, hc)

/-- One classification step of the make_merger loop: the merge entry
recorded at index `i`, the updated `header_checked`, and the updated
`ignored` count.  `none` models a failed `assert`. -/
def mergeEntry (af cf : List MElmnt) (cs1 cs2 : List Csl) (ignore_already : Bool)
    (st : MSt) : Option (Merge × Option Nat × Nat) :=
  if m1ok cs1 st = false ∧ m2ok cs2 st = true then
    if st.a < newaCalc af (cslGet cs1 st.c1) st.header_found st.a st.b then
      some ({ entryBase st with
              type := MType.Unmatched
              oldtype := MType.Unmatched
              al := newaCalc af (cslGet cs1 st.c1) st.header_found st.a st.b - st.a
              bl := 0
              cl := 0 }, st.header_checked, st.ignored)
    else if ¬ (st.b < ((cslGet cs1 st.c1).b : Int)) then none
    else if ¬ (st.b < (newbCalc (cslGet cs1 st.c1) (cslGet cs2 st.c2) st.header_found
        st.header_checked st.b).1) then none
    else
      some ({ entryBase st with
              type := MType.Extraneous
              oldtype := MType.Extraneous
              al := 0
              bl := (newbCalc (cslGet cs1 st.c1) (cslGet cs2 st.c2) st.header_found
                st.header_checked st.b).1 - st.b
              cl := (newbCalc (cslGet cs1 st.c1) (cslGet cs2 st.c2) st.header_found
                st.header_checked st.b).1 - st.b },
            (newbCalc (cslGet cs1 st.c1) (cslGet cs2 st.c2) st.header_found
              st.header_checked st.b).2, st.ignored)
  else if m1ok cs1 st = true ∧ m2ok cs2 st = false then
    some ({ entryBase st with
            type := MType.Changed
            oldtype := MType.Changed
            al := min (((cslGet cs1 st.c1).b : Int) + ((cslGet cs1 st.c1).len : Int))
              ((cslGet cs2 st.c2).a : Int) - st.b
            bl := min (((cslGet cs1 st.c1).b : Int) + ((cslGet cs1 st.c1).len : Int))
              ((cslGet cs2 st.c2).a : Int) - st.b
            cl := ((cslGet cs2 st.c2).b : Int) - st.c }, st.header_checked, st.ignored)
  else if m1ok cs1 st = true ∧ m2ok cs2 st = true then
    some ({ entryBase st with
            type := MType.Unchanged
            oldtype := MType.Unchanged
            al := min (((cslGet cs1 st.c1).len : Int) - (st.b - ((cslGet cs1 st.c1).b : Int)))
              (((cslGet cs2 st.c2).len : Int) - (st.b - ((cslGet cs2 st.c2).a : Int)))
            bl := min (((cslGet cs1 st.c1).len : Int) - (st.b - ((cslGet cs1 st.c1).b : Int)))
              (((cslGet cs2 st.c2).len : Int) - (st.b - ((cslGet cs2 st.c2).a : Int)))
            cl := min (((cslGet cs1 st.c1).len : Int) - (st.b - ((cslGet cs1 st.c1).b : Int)))
              (((cslGet cs2 st.c2).len : Int) - (st.b - ((cslGet cs2 st.c2).a : Int))) },
          st.header_checked, st.ignored)
  else
    if ignore_already = true ∧ check_alreadyapplied af cf st.a st.c
        (((cslGet cs1 st.c1).a : Int) - st.a) (((cslGet cs2 st.c2).b : Int) - st.c) = true then
      some ({ entryBase st with
              type := MType.AlreadyApplied
              oldtype := MType.AlreadyApplied
              al := ((cslGet cs1 st.c1).a : Int) - st.a
              bl := min ((cslGet cs1 st.c1).b : Int) ((cslGet cs2 st.c2).a : Int) - st.b
              cl := ((cslGet cs2 st.c2).b : Int) - st.c },
            st.header_checked, st.ignored + 1)
    else if (min ((cslGet cs1 st.c1).b : Int) ((cslGet cs2 st.c2).a : Int) - st.b = 0 ∧
        0 < ((cslGet cs2 st.c2).b : Int) - st.c) then
      some ({ entryBase st with
              type := MType.Conflict
              oldtype := MType.Conflict
              al := 0
              bl := min ((cslGet cs1 st.c1).b : Int) ((cslGet cs2 st.c2).a : Int) - st.b
              cl := ((cslGet cs2 st.c2).b : Int) - st.c }, st.header_checked, st.ignored)
    else
      some ({ entryBase st with
              type := MType.Conflict
              oldtype := MType.Conflict
              al := ((cslGet cs1 st.c1).a : Int) - st.a
              bl := min ((cslGet cs1 st.c1).b : Int) ((cslGet cs2 st.c2).a : Int) - st.b
              cl := ((cslGet cs2 st.c2).b : Int) - st.c }, st.header_checked, st.ignored)

/-- The common tail of the loop body: advance `a,b,c` by the recorded
lengths, advance `c1`/`c2` past exhausted csl entries, check the two
`assert`s, and evaluate the loop-exit condition. -/
def mergeTail (cs1 cs2 : List Csl) (al bl cl : Int) (st : MSt) : Option (MSt × Bool) :=
  match cslAdvanceA cs1 (st.a + al) (cs1.length + 1) st.c1 with
  | Option.none => none
  | Option.some c1' =>
    if ¬ (st.b + bl ≤ ((cslGet cs1 c1').b : Int) + ((cslGet cs1 c1').len : Int)) then none
    else
      match cslAdvanceB cs2 (st.c + cl) (cs2.length + 1) st.c2 with
      | Option.none => none
      | Option.some c2' =>
        if ¬ (st.b + bl ≤ ((cslGet cs2 c2').a : Int) + ((cslGet cs2 c2').len : Int)) then none
        else
          some ({ st with
                  a := st.a + al
                  b := st.b + bl
                  c := st.c + cl
                  c1 := c1'
                  c2 := c2' },
            decide ((cslGet cs1 c1').len = 0) && decide ((cslGet cs2 c2').len = 0) &&
            decide (st.a + al = ((cslGet cs1 c1').a : Int)) &&
            decide (st.b + bl = ((cslGet cs1 c1').b : Int)) &&
            decide (st.b + bl = ((cslGet cs2 c2').a : Int)) &&
            decide (st.c + cl = ((cslGet cs2 c2').b : Int)))

/-- One full iteration of the make_merger `while (1)` loop. -/
def mergeStep (af bf cf : List MElmnt) (cs1 cs2 : List Csl) (ignore_already : Bool)
    (st0 : MSt) : Option (Merge × MSt × Bool) :=
  match hdrUpd bf cs2 st0 with
  | Option.none => none
  | Option.some st =>
    match mergeEntry af cf cs1 cs2 ignore_already st with
    | Option.none => none
    | Option.some (m, hc, ig) =>
      match mergeTail cs1 cs2 m.al m.bl m.cl
          { st with header_checked := hc, ignored := ig } with
      | Option.none => none
      | Option.some (st', brk) => some (m, st', brk)

/-- The End record written after the loop. -/
def mergeEndRec (st : MSt) : Merge :=
  ⟨MType.End, MType.End, st.a, st.b, st.c, st.c1, st.c2, 0, 0, 0, 0, 0, 0⟩

/-- The make_merger main loop: the list of merge entries, the End
record, and the final `ignored` count. -/
def mergeLoop (af bf cf : List MElmnt) (cs1 cs2 : List Csl) (ignore_already : Bool) :
    Nat → MSt → Option (List Merge × Merge × Nat)
  | 0, _ => none
  | fuel + 1, st =>
    match mergeStep af bf cf cs1 cs2 ignore_already st with
    | Option.none => none
    | Option.some (m, st', brk) =>
      if brk then some ([m], mergeEndRec st', st'.ignored)
      else
        match mergeLoop af bf cf cs1 cs2 ignore_already fuel st' with
        | Option.none => none
        | Option.some (ms, e, ig) => some (m :: ms, e, ig)

/-- The identity common-sequence list between a file of `n` elements
and itself (what diff produces when the two files are equal): one
whole-file match followed by the sentinel. -/
def idCsl (n : Nat) : List Csl := [⟨0, 0, n⟩, ⟨n, n, 0⟩]

def mex : MElmnt := ⟨[120, 10], true⟩

def c4ms : List Merge :=
  [⟨MType.Unchanged, MType.Unchanged, 0, 0, 0, 0, 0, 1, 1, 1, 0, 0, 0⟩]

def c4end : Merge := ⟨MType.End, MType.End, 1, 1, 1, 1, 1, 0, 0, 0, 0, 0, 0⟩

def endDefault : Merge := ⟨MType.End, MType.End, 0, 0, 0, 0, 0, 0, 0, 0, 0, 0, 0⟩

def mget (arr : List Merge) (i : Int) : Merge := arr.getD i.toNat endDefault

def mset (arr : List Merge) (i : Int) (v : Merge) : List Merge := arr.set i.toNat v

/-- is_cutpoint (merge2.c): all three streams are at a line start. -/
def is_cutpoint (m : Merge) (af bf cf : List MElmnt) : Bool :=
  (m.a == 0 || (fget af (m.a - 1)).endsLine) &&
  (m.b == 0 || (fget bf (m.b - 1)).endsLine) &&
  (m.c == 0 || (fget cf (m.c - 1)).endsLine)

/-- Count the line-ending elements among `bf.list[b .. b+bl)` (the
Extraneous newline counting of both scans; the two C loops run in
opposite directions over the same index set). -/
def countNLbf (bf : List MElmnt) (b : Int) : Nat → Int → Nat → Nat
  | 0, _, acc => acc
  | fuel + 1, k, acc =>
    if 0 < k then
      countNLbf bf b fuel (k - 1)
        (acc + (if (fget bf (b + k - 1)).endsLine then 1 else 0))
    else acc

/-- The backward newline scan over an Unchanged/Changed section
(merge2.c lines 218-240): `k` runs from `al` down to 1, `firstk`
records the first (i.e. highest) line end found, and the scan stops
early at the third newline (returning `firstk`) or at the end of the
file. -/
def backKScan (af : List MElmnt) (a al : Int) : Nat → Int → Int → Nat → Int × Int × Nat
  | 0, k, firstk, newlines => (k, firstk, newlines)
  | fuel + 1, k, firstk, newlines =>
    if 0 < k then
      if af.length ≤ a + k then (k, firstk, newlines)
      else if (fget af (a + k - 1)).endsLine then
        if al < firstk then
          if 3 ≤ newlines + 1 then (k, k, newlines + 1)
          else backKScan af a al fuel (k - 1) k (newlines + 1)
        else
          if 3 ≤ newlines + 1 then (firstk, firstk, newlines + 1)
          else backKScan af a al fuel (k - 1) firstk (newlines + 1)
      else backKScan af a al fuel (k - 1) firstk newlines
    else (k, firstk, newlines)

/-- The forward newline scan (merge2.c lines 298-308): `k` runs up from
0, `firstk` records the first (lowest) line end, stopping at the third
newline with `k = firstk`. -/
def fwdKScan (af : List MElmnt) (a al : Int) : Nat → Int → Int → Nat → Int × Int × Nat
  | 0, k, firstk, newlines => (k, firstk, newlines)
  | fuel + 1, k, firstk, newlines =>
    if k < al then
      if (fget af (a + k)).endsLine then
        if firstk < 0 then
          if 3 ≤ newlines + 1 then (k, k, newlines + 1)
          else fwdKScan af a al fuel (k + 1) k (newlines + 1)
        else
          if 3 ≤ newlines + 1 then (firstk, firstk, newlines + 1)
          else fwdKScan af a al fuel (k + 1) firstk (newlines + 1)
      else fwdKScan af a al fuel (k + 1) firstk newlines
    else (k, firstk, newlines)

/-- Newline count of the following Unmatched section, capped just past
3 (merge2.c lines 317-324). -/
def countNLcap (af : List MElmnt) (a al : Int) : Nat → Int → Nat → Nat
  | 0, _, nl => nl
  | fuel + 1, p, nl =>
    if p < al then
      if (fget af (a + p)).endsLine then
        if 3 < nl + 1 then nl + 1
        else countNLcap af a al fuel (p + 1) (nl + 1)
      else countNLcap af a al fuel (p + 1) nl
    else nl

/-- The backward extension of a conflict (merge2.c lines 181-262):
walk `j` down from `i-1`, marking sections as borders (`in_conflict =
1`, computing `hi`) or as parts of the conflict, until a cut-point, a
hunk header, or an existing conflict is found. -/
def backScan (af bf cf : List MElmnt) (words : Bool) (ic : Nat) :
    Nat → Int → Nat → List Merge → List Merge
  | 0, _, _, arr => arr
  | fuel + 1, j, newlines, arr =>
    if j < 0 then arr
    else
      let mj := mget arr j
      if (mj.type = MType.Extraneous ∧ isHdr (fget bf mj.b) = true) then arr
      else if 1 < mj.in_conflict then arr
      else
        let arr1 := if mj.in_conflict = 0 then mset arr j { mj with in_conflict := 1, lo := 0 }
          else arr
        let mj1 := mget arr1 j
        let newlines1 := if mj1.type = MType.Extraneous
          then newlines + countNLbf bf mj1.b (mj1.bl.toNat + 1) mj1.bl 0
          else newlines
        if (mj1.type ≠ MType.Unchanged ∧ mj1.type ≠ MType.Changed) then
          backScan af bf cf words ic fuel (j - 1) newlines1
            (mset arr1 j { mj1 with
              in_conflict := if mj1.type = MType.Conflict then 2 else ic })
        else
          if words then mset arr1 j { mj1 with hi := mj1.al }
          else
            let sc := backKScan af mj1.a mj1.al (mj1.al.toNat + 1) mj1.al (mj1.al + 1) newlines1
            let hi1 : Int :=
              if 0 < sc.1 then sc.1
              else if j = 0 then sc.2.1
              else if is_cutpoint mj1 af bf cf = true then 0
              else -1
            let hi2 : Int :=
              if (0 < hi1 ∧ mj1.type = MType.Changed ∧ is_cutpoint mj1 af bf cf = false)
              then -1 else hi1
            if 0 ≤ hi2 then mset arr1 j { mj1 with hi := hi2 }
            else backScan af bf cf words ic fuel (j - 1) sc.2.2
              (mset arr1 j { mj1 with hi := hi2, in_conflict := ic })

/-- The forward extension of a conflict (merge2.c lines 264-345):
returns the updated array and the final `j`. -/
def fwdScan (af bf cf : List MElmnt) (words : Bool) (ic : Nat) :
    Nat → Int → Nat → List Merge → List Merge × Int
  | 0, j, _, arr => (arr, j)
  | fuel + 1, j, newlines, arr =>
    let mj := mget arr j
    if mj.type = MType.End then (arr, j)
    else
      let newlines1 := if mj.type = MType.Extraneous
        then newlines + countNLbf bf mj.b (mj.bl.toNat + 1) mj.bl 0
        else newlines
      if (mj.type ≠ MType.Unchanged ∧ mj.type ≠ MType.Changed) then
        fwdScan af bf cf words ic fuel (j + 1) newlines1
          (mset arr j { mj with
            in_conflict := if mj.type = MType.Conflict then 2 else ic })
      else
        if words then
          (mset arr j { mj with in_conflict := 1, hi := mj.al, lo := 0 }, j)
        else
          let mnext := mget arr (j + 1)
          let scanres : Int × Nat :=
            if is_cutpoint mj af bf cf = true then (0, newlines1)
            else
              let sc := fwdKScan af mj.a mj.al (mj.al.toNat + 1) 0 (-1) newlines1
              let k3 : Int := if (sc.2.2 < 3 ∧ mnext.type = MType.End) then sc.2.1 else sc.1
              let k4 : Int :=
                if (0 ≤ sc.2.1 ∧ mnext.type = MType.Unmatched ∧
                    3 < countNLcap af mnext.a mnext.al (mnext.al.toNat + 1) 0 0)
                then sc.2.1 else k3
              (if k4 < mj.al then k4 + 1 else mj.al + 1, sc.2.2)
          let lo2 : Int :=
            if (scanres.1 ≤ mj.al + 1 ∧ mj.type = MType.Changed ∧
                is_cutpoint mnext af bf cf = false)
            then mj.al + 1 else scanres.1
          if lo2 < mj.al + 1 then
            (mset arr j { mj with in_conflict := 1, hi := mj.al, lo := lo2 }, j)
          else
            fwdScan af bf cf words ic fuel (j + 1) scanres.2
              (mset arr j { mj with in_conflict := ic, hi := mj.al, lo := lo2 })

/-- The false-alarm backward check (merge2.c lines 362-364): scan down
through the conflict; `true` means a Changed or Conflict section was
found (the conflict is real). -/
def faScan (arr : List Merge) : Nat → Int → Int × Bool
  | 0, j => (j, false)
  | fuel + 1, j =>
    if (0 ≤ j ∧ 1 < (mget arr j).in_conflict) then
      if ((mget arr j).type = MType.Changed ∨ (mget arr j).type = MType.Conflict)
      then (j, true)
      else faScan arr fuel (j - 1)
    else (j, false)

/-- `while (j <= i) m[j++].in_conflict = 0;` -/
def clearRange (arr : List Merge) : Nat → Int → Int → List Merge
  | 0, _, _ => arr
  | fuel + 1, j, i =>
    if j ≤ i then
      clearRange (mset arr j { (mget arr j) with in_conflict := 0 }) fuel (j + 1) i
    else arr

/-- The initial pass clearing every in_conflict up to the End record. -/
def clearToEnd (arr : List Merge) : Nat → Int → List Merge
  | 0, _ => arr
  | fuel + 1, i =>
    if (mget arr i).type = MType.End then arr
    else clearToEnd (mset arr i { (mget arr i) with in_conflict := 0 }) fuel (i + 1)

/-- The escape countdown (merge2.c lines 383-397): each full line
inside the section reduces the changed/unmatched/extraneous
countdowns. -/
def cntdown (af : List MElmnt) (words : Bool) (a al : Int) :
    Nat → Int → Nat × Nat × Nat → Nat × Nat × Nat
  | 0, _, cue => cue
  | fuel + 1, k, cue =>
    if k < al then
      if af.length ≤ a + k then cue
      else if (words = true ∨ (fget af (a + k)).endsLine = true) then
        cntdown af words a al fuel (k + 1) (cue.1 - 1, cue.2.1 - 1, cue.2.2 - 1)
      else cntdown af words a al fuel (k + 1) cue
    else cue

/-- The main loop of isolate_conflicts (merge2.c lines 148-398).
Returns the updated merge array and the wiggle count. -/
def isoLoop (af bf cf : List MElmnt) (words show_wiggles : Bool) :
    Nat → Int → Nat → Nat → Nat → Bool → Nat → List Merge → Option (List Merge × Nat)
  | 0, _, _, _, _, _, _, _ => none
  | fuel + 1, i, changed, unmatched, extraneous, in_wiggle, wiggles, arr =>
    let mi := mget arr i
    if mi.type = MType.End then some (arr, wiggles)
    else
      let changed1 := if mi.type = MType.Changed then 3 else changed
      let unmatched1 := if mi.type = MType.Unmatched then 3 else unmatched
      let extraneous1 :=
        if (mi.type = MType.Extraneous ∧ isHdr (fget bf mi.b) = false) then 3
        else extraneous
      let inw : Bool :=
        if (mi.type ≠ MType.Unchanged ∧ changed1 ≠ 0 ∧ (unmatched1 ≠ 0 ∨ extraneous1 ≠ 0))
        then true else false
      let wiggles1 := if (inw = true ∧ in_wiggle = false) then wiggles + 1 else wiggles
      if (mi.type = MType.Conflict ∨ (show_wiggles = true ∧ inw = true)) then
        let ic : Nat := if mi.type = MType.Conflict then 2 else 3
        let arrA := mset arr i { mi with in_conflict := ic }
        let arrB := backScan af bf cf words ic (i.toNat + 1) (i - 1) 0 arrA
        let fw := fwdScan af bf cf words ic (arrB.length + 1) (i + 1) 0 arrB
        let i1 : Int := if (mget fw.1 (fw.2 - 1)).in_conflict = 1 then fw.2 - 1 else fw.2
        let arrF :=
          if (mget fw.1 fw.2).type = MType.Changed then fw.1
          else
            let fa := faScan fw.1 (i1.toNat + 1) (i1 - 1)
            if fa.2 = true then fw.1
            else if (0 ≤ fa.1 ∧ (mget fw.1 fa.1).type = MType.Changed) then fw.1
            else
              let j3 : Int := if fa.1 < 0 then 0 else fa.1
              let step :=
                if (mget fw.1 j3).in_conflict = 1 then
                  (mset fw.1 j3 { (mget fw.1 j3) with
                    hi := (mget fw.1 j3).al
                    in_conflict := if (mget fw.1 j3).lo = 0 then 0 else 1 }, j3 + 1)
                else (fw.1, j3)
              clearRange step.1 ((i1 - step.2).toNat + 1) step.2 i1
        if (mget arrF i1).type = MType.End then some (arrF, wiggles1)
        else
          let cue := cntdown af words (mget arrF i1).a (mget arrF i1).al
            ((mget arrF i1).al.toNat + 1) 1 (changed1, unmatched1, extraneous1)
          isoLoop af bf cf words show_wiggles fuel (i1 + 1) cue.1 cue.2.1 cue.2.2
            inw wiggles1 arrF
      else
        let cue := cntdown af words mi.a mi.al (mi.al.toNat + 1) 1
          (changed1, unmatched1, extraneous1)
        isoLoop af bf cf words show_wiggles fuel (i + 1) cue.1 cue.2.1 cue.2.2
          inw wiggles1 arr

/-- The inner scan of the counting pass (merge2.c lines 407-417). -/
def countScan (arr : List Merge) : Nat → Int → Int → Bool → Int × Bool
  | 0, j, _, tc => (j, tc)
  | fuel + 1, j, i, tc =>
    if ((mget arr j).type ≠ MType.End ∧ (mget arr j).in_conflict ≠ 0) then
      let tc1 := if (mget arr j).in_conflict = 2 then true else tc
      if (i < j ∧ (mget arr j).in_conflict = 1) then
        if (mget arr (j + 1)).in_conflict = 0 then (j + 1, tc1) else (j, tc1)
      else countScan arr fuel (j + 1) i tc1
    else (j, tc)

/-- The counting pass (merge2.c lines 402-423): count conflict regions
as true conflicts (containing an in_conflict==2 merger) or wiggles. -/
def countRegions (arr : List Merge) : Nat → Int → Nat → Nat → Option (Nat × Nat)
  | 0, _, _, _ => none
  | fuel + 1, i, cnt, wig =>
    if (mget arr i).type = MType.End then some (cnt, wig)
    else if (mget arr i).in_conflict = 0 then countRegions arr fuel (i + 1) cnt wig
    else
      match countScan arr (arr.length + 1) i i false with
      | (j, tc) =>
        if tc = true then countRegions arr fuel (j - 1 + 1) (cnt + 1) wig
        else countRegions arr fuel (j - 1 + 1) cnt (wig + 1)

/-- isolate_conflicts (merge2.c): clear the flags, run the main loop,
then count.  Returns the updated array, the conflict count, and the
wiggle count. -/
def isolate_conflicts (af bf cf : List MElmnt) (words show_wiggles : Bool)
    (arr : List Merge) (fuel : Nat) : Option (List Merge × Nat × Nat) :=
  match isoLoop af bf cf words show_wiggles fuel 0 0 0 0 false 0
      (clearToEnd arr (arr.length + 1) 0) with
  | Option.none => none
  | Option.some (arr1, wig) =>
    match countRegions arr1 (arr1.length + 1) 0 0 0 with
    | Option.none => none
    | Option.some (cnt, wig2) =>
      some (arr1, cnt, if show_wiggles then wig + wig2 else wig)

/-! ### The per-entry invariant of isolate_conflicts (C7) -/

/-- The per-entry invariant of isolate_conflicts: a border merger
(`in_conflict = 1`) has `0 ≤ lo ≤ al`, `lo ≤ hi`, and when `lo > 0`
the element just before `a + lo` ends a line and the section does not
start at a cut-point (the facts that force any later backward scan to
choose `hi ≥ lo`). -/
def mOK (af bf cf : List MElmnt) (m : Merge) : Prop :=
  m.in_conflict = 1 →
    0 ≤ m.lo ∧ m.lo ≤ m.al ∧ m.lo ≤ m.hi ∧
    (0 < m.lo → (fget af (m.a + m.lo - 1)).endsLine = true ∧
      is_cutpoint m af bf cf = false)

/-- The A-range of a merge entry lies inside the orig file (true of
every entry make_merger records). -/
def mBounded (af : List MElmnt) (m : Merge) : Prop :=
  0 ≤ m.a ∧ 0 ≤ m.al ∧ m.a + m.al ≤ (af.length : Int)

/-- Every entry of the array satisfies both invariants. -/
def ArrOK (af bf cf : List MElmnt) (arr : List Merge) : Prop :=
  ∀ m ∈ arr, mOK af bf cf m ∧ mBounded af m

/-! ### isolate_conflicts: the conflict-border invariant (C7) -/

def c7af : List MElmnt := [⟨[120, 10], true⟩]

def c7bf : List MElmnt := [⟨[121, 10], true⟩]

def c7cf : List MElmnt := [⟨[121, 10], true⟩]

/-- A make_merger-shaped merge stream: a Conflict followed by an
Unchanged section and the End record, all `in_conflict` cleared. -/
def c7arr : List Merge := [
  ⟨MType.Conflict, MType.Conflict, 0, 0, 0, 0, 0, 0, 0, 1, 0, 0, 0⟩,
  ⟨MType.Unchanged, MType.Unchanged, 0, 0, 1, 0, 0, 1, 1, 1, 0, 0, 0⟩,
  ⟨MType.End, MType.End, 1, 1, 2, 0, 0, 0, 0, 0, 0, 0, 0⟩]

/-- What isolate_conflicts makes of `c7arr`: the Unchanged border gets
`in_conflict = 1` with `lo = 0 ≤ hi = 1`. -/
def c7res : List Merge := [
  ⟨MType.Conflict, MType.Conflict, 0, 0, 0, 0, 0, 0, 0, 1, 2, 0, 0⟩,
  ⟨MType.Unchanged, MType.Unchanged, 0, 0, 1, 0, 0, 1, 1, 1, 1, 0, 1⟩,
  ⟨MType.End, MType.End, 1, 1, 2, 0, 0, 0, 0, 0, 0, 0, 0⟩]

/-! ## Theorems -/

theorem takeEol_append_dropEol (xs : List Nat) : takeEol xs ++ dropEol xs = xs := by
  induction xs with
  | nil => rfl
  | cons x t ih =>
    by_cases h : x = 10 <;> simp [takeEol, dropEol, h, ih]

theorem dropEol_length_lt (xs : List Nat) (h : xs ≠ []) :
    (dropEol xs).length < xs.length := by
  induction xs with
  | nil => simp at h
  | cons x t ih =>
    by_cases h10 : x = 10
    · simp [dropEol, h10]
    · simp only [dropEol, h10, if_false]
      rcases t with _ | ⟨y, t⟩
      · simp [dropEol]
      · exact Nat.lt_succ_of_lt (ih (by simp))

theorem state0Step_snd (st : PSt) (rest : List Nat) :
    (state0Step st rest).2 = dropEol rest := rfl

theorem dropEol_length_le (xs : List Nat) : (dropEol xs).length ≤ xs.length := by
  induction xs with
  | nil => simp [dropEol]
  | cons x t ih =>
    by_cases h : x = 10 <;> simp only [dropEol, h, if_true, if_false, List.length_cons] <;> omega

theorem state0Step_length_lt (st : PSt) (rest : List Nat) (h : rest ≠ []) :
    (state0Step st rest).2.length < rest.length := by
  rw [state0Step_snd]
  exact dropEol_length_lt rest h

theorem dropEol_drop_length_lt (rest : List Nat) (k : Nat) (hk : 0 < k)
    (h : rest ≠ []) : (dropEol (rest.drop k)).length < rest.length := by
  have h1 : (dropEol (rest.drop k)).length ≤ (rest.drop k).length :=
    dropEol_length_le _
  have h2 : (rest.drop k).length = rest.length - k := by simp
  have h3 : 0 < rest.length := List.length_pos.mpr h
  omega

/-- Any two fuels exceeding the remaining input length give the same
run: the loop always consumes at least one byte per iteration. -/
theorem splitLoop_fuel_irrelevant (fuel1 fuel2 : Nat) (rest : List Nat) (st : PSt)
    (h1 : rest.length < fuel1) (h2 : rest.length < fuel2) :
    splitLoop fuel1 rest st = splitLoop fuel2 rest st := by
  induction fuel1 generalizing fuel2 rest st with
  | zero => omega
  | succ f1 ih =>
    match fuel2 with
    | 0 => omega
    | f2 + 1 =>
      by_cases hr : rest = []
      · simp [splitLoop, hr]
      · have hlen : 0 < rest.length := List.length_pos.mpr hr
        have hdo : ∀ k, 0 < k → (dropEol (rest.drop k)).length < rest.length :=
          fun k hk => dropEol_drop_length_lt rest k hk hr
        have hde : (dropEol rest).length < rest.length := dropEol_length_lt rest hr
        simp only [splitLoop, if_neg hr, state0Step_snd]
        repeat' split
        all_goals first
          | rfl
          | exact ih _ _ _ (by omega) (by omega)
          | exact ih _ _ _ (by have := hdo 2 (by omega); omega)
              (by have := hdo 2 (by omega); omega)
          | exact ih _ _ _ (by have := hdo 1 (by omega); omega)
              (by have := hdo 1 (by omega); omega)

theorem addBody_length (extra : List Nat) (segs : List (Int × Int × List Nat)) :
    (addBody extra segs).length = segs.length := by
  induction segs with
  | nil => rfl
  | cons s t ih =>
    match t with
    | [] => rcases s with ⟨x, y, b⟩; rfl
    | u :: t' => simpa [addBody] using ih

theorem renderSegs_addBody (extra : List Nat)
    (segs : List (Int × Int × List Nat)) (h : segs ≠ []) :
    ∀ k0, renderSegs k0 (addBody extra segs) = renderSegs k0 segs ++ extra := by
  induction segs with
  | nil => simp at h
  | cons s t ih =>
    intro k0
    rcases s with ⟨x, y, b⟩
    match t with
    | [] => simp [addBody, renderSegs]
    | u :: t' =>
      have hstep : addBody extra ((x, y, b) :: u :: t') =
          (x, y, b) :: addBody extra (u :: t') := rfl
      rw [hstep]
      simp only [renderSegs]
      rw [ih (by simp) (k0 + 1)]
      rcases u with ⟨ux, uy, ub⟩
      simp [renderSegs, List.append_assoc]

theorem renderSegs_snoc (x y : Int) (b : List Nat)
    (segs : List (Int × Int × List Nat)) :
    ∀ k0, renderSegs k0 (segs ++ [(x, y, b)]) =
      renderSegs k0 segs ++ mkSentinel (k0 + segs.length + 1) x y ++ b := by
  induction segs with
  | nil => intro k0; simp [renderSegs]
  | cons s t ih =>
    intro k0
    rcases s with ⟨x', y', b'⟩
    simp only [List.cons_append, renderSegs, List.append_eq]
    rw [ih (k0 + 1)]
    have harith : k0 + 1 + t.length + 1 = k0 + (t.length + 1) + 1 := by omega
    rw [harith]
    simp [List.append_assoc]

theorem state0Hdr_r1 (st : PSt) (cs : List Nat) :
    (state0Hdr st cs).r1 = st.r1 ∧ (state0Hdr st cs).chunks = st.chunks ∧
    ((state0Hdr st cs).state = st.state ∨ (state0Hdr st cs).state = 0 ∨
     (state0Hdr st cs).state = 1 ∨ (state0Hdr st cs).state = 2 ∨
     (state0Hdr st cs).state = 3) := by
  unfold state0Hdr
  repeat' split
  all_goals simp

theorem state0Emit2_fields (st : PSt) :
    (state0Emit2 st).r1 = st.r1 ∧ (state0Emit2 st).chunks = st.chunks ∧
    (state0Emit2 st).state = st.state := by
  unfold state0Emit2
  split <;> simp

theorem state0Emit_SegInv (st : PSt) (hst : st.state ≤ 3)
    (h : ∃ segs : List (Int × Int × List Nat),
      segs.length = st.chunks ∧ st.r1 = renderSegs 0 segs) :
    SegInv (state0Emit st) := by
  obtain ⟨segs, hlen, hr1⟩ := h
  obtain ⟨e1, e2, e3⟩ := state0Emit2_fields (state0Emit1 st)
  unfold state0Emit
  rw [SegInv, e1, e2, e3]
  unfold state0Emit1
  by_cases h13 : (st.state = 1 || st.state = 3) = true
  · rw [if_pos h13]
    exact ⟨by simpa using hst,
      segs ++ [(st.va, st.acnt, [])],
      by simp [hlen],
      by simp only; rw [hr1, renderSegs_snoc _ _ _ _ 0]; simp [hlen],
      fun _ => by simp⟩
  · rw [if_neg h13]
    refine ⟨hst, segs, hlen, hr1, fun hc => ?_⟩
    rcases hc with hc | hc <;> simp [hc] at h13

theorem state0Step_SegInv (st : PSt) (rest : List Nat) (h : SegInv st) :
    SegInv (state0Step st rest).1 := by
  obtain ⟨hst, segs, hlen, hr1, _⟩ := h
  obtain ⟨h1, h2, h3⟩ := state0Hdr_r1 st (cstr rest)
  refine state0Emit_SegInv _ ?_ ⟨segs, by rw [h2, ← hlen], by rw [h1, hr1]⟩
  rcases h3 with h3 | h3 | h3 | h3 | h3 <;> omega

theorem SegInv_lineno (st : PSt) (n : Nat) (h : SegInv st) :
    SegInv { st with lineno := n } := by
  obtain ⟨h0, segs, h1, h2, h3⟩ := h
  exact ⟨by simpa using h0, segs, by simpa using h1, by simpa using h2,
    by simpa using h3⟩

theorem state1Step_SegInv (st : PSt) (rest : List Nat) (h : SegInv st)
    (hs : st.state = 1) : SegInv (state1Step st rest) := by
  obtain ⟨_, segs, hlen, hr1, hpos⟩ := h
  have hch : 0 < st.chunks := hpos (Or.inl hs)
  have hne : segs ≠ [] := by
    intro he; rw [he] at hlen; simp at hlen; omega
  unfold state1Step
  have hky : ∃ segs2 : List (Int × Int × List Nat),
      segs2.length = st.chunks ∧
      st.r1 ++ takeEol (rest.drop 2) = renderSegs 0 segs2 :=
    ⟨addBody (takeEol (rest.drop 2)) segs,
      by simp [addBody_length, hlen],
      by rw [hr1, renderSegs_addBody _ _ hne 0]⟩
  obtain ⟨segs2, hl2, hr2⟩ := hky
  simp only
  split
  · exact ⟨by simp, segs2, by simpa using hl2, by simpa using hr2,
      fun hc => by simp at hc⟩
  · exact ⟨by simp [hs], segs2, by simpa using hl2, by simpa using hr2,
      fun _ => by simpa using hch⟩

theorem state2Step_SegInv (st : PSt) (rest : List Nat) (h : SegInv st)
    (hs : st.state = 2) : SegInv (state2Step st rest) := by
  obtain ⟨_, segs, hlen, hr1, _⟩ := h
  unfold state2Step
  simp only
  split
  · exact ⟨by simp, segs, by simpa using hlen, by simpa using hr1,
      fun hc => by simp at hc⟩
  · exact ⟨by simp [hs], segs, by simpa using hlen, by simpa using hr1,
      fun hc => by rw [hs] at hc; simp at hc⟩

theorem state3Step_SegInv (st : PSt) (c0 : Nat) (rest : List Nat) (h : SegInv st)
    (hs : st.state = 3) : SegInv (state3Step st c0 rest) := by
  obtain ⟨_, segs, hlen, hr1, hpos⟩ := h
  have hch : 0 < st.chunks := hpos (Or.inr hs)
  have hne : segs ≠ [] := by
    intro he; rw [he] at hlen; simp at hlen; omega
  unfold state3Step
  have hky : ∀ extra : List Nat, ∃ segs2 : List (Int × Int × List Nat),
      segs2.length = st.chunks ∧
      st.r1 ++ extra = renderSegs 0 segs2 := fun extra =>
    ⟨addBody extra segs,
      by simp [addBody_length, hlen],
      by rw [hr1, renderSegs_addBody _ _ hne 0]⟩
  split
  · obtain ⟨segs2, hl2, hr2⟩ := hky (takeEol (rest.drop 1))
    simp only
    split
    · exact ⟨by simp, segs2, by simpa using hl2, by simpa using hr2,
        fun hc => by simp at hc⟩
    · exact ⟨by simp [hs], segs2, by simpa using hl2, by simpa using hr2,
        fun _ => by simpa using hch⟩
  · split
    · obtain ⟨segs2, hl2, hr2⟩ := hky (takeEol (rest.drop 1))
      simp only
      split
      · exact ⟨by simp, segs2, by simpa using hl2, by simpa using hr2,
          fun hc => by simp at hc⟩
      · exact ⟨by simp [hs], segs2, by simpa using hl2, by simpa using hr2,
          fun _ => by simpa using hch⟩
    · simp only
      split
      · exact ⟨by simp, segs, by simpa using hlen, by simpa using hr1,
          fun hc => by simp at hc⟩
      · exact ⟨by simp [hs], segs, by simpa using hlen, by simpa using hr1,
          fun _ => by simpa using hch⟩

theorem splitLoop_segs (fuel : Nat) (rest : List Nat) (st : PSt)
    (hInv : SegInv st) :
    ∀ r1 r2 ch, splitLoop fuel rest st = SplitRes.ok r1 r2 ch →
      ∃ segs : List (Int × Int × List Nat),
        segs.length = ch ∧ r1 = renderSegs 0 segs := by
  induction fuel generalizing rest st with
  | zero => intro r1 r2 ch h; simp [splitLoop] at h
  | succ fuel ih =>
    intro r1 r2 ch h
    rw [splitLoop] at h
    by_cases hr : rest = []
    · rw [if_pos hr] at h
      obtain ⟨_, segs, hlen, hr1, _⟩ := hInv
      cases h
      exact ⟨segs, hlen, hr1⟩
    · rw [if_neg hr] at h
      by_cases hs0 : st.state = 0
      · rw [if_pos hs0] at h
        exact ih _ _ (SegInv_lineno _ _ (state0Step_SegInv st rest hInv)) r1 r2 ch h
      · rw [if_neg hs0] at h
        by_cases hs1 : st.state = 1
        · rw [if_pos hs1] at h
          split at h
          · exact ih _ _ (SegInv_lineno _ _ (state1Step_SegInv st rest hInv hs1)) r1 r2 ch h
          · exact absurd h (by simp)
        · rw [if_neg hs1] at h
          by_cases hs2 : st.state = 2
          · rw [if_pos hs2] at h
            split at h
            · exact ih _ _ (SegInv_lineno _ _ (state2Step_SegInv st rest hInv hs2)) r1 r2 ch h
            · exact absurd h (by simp)
          · rw [if_neg hs2] at h
            have hs3 : st.state = 3 := by
              have := hInv.1
              omega
            split at h
            · exact ih _ _ (SegInv_lineno _ _ (state3Step_SegInv st _ rest hInv hs3)) r1 r2 ch h
            · exact absurd h (by simp)

/-- C8 counterexample: on a real patch, the sentinel split_patch
writes is not of the claimed zero-padded form — byte 1 of the
sentinel is a space (32), whereas a 5-digit zero-padded number would
start with the digit 0 (48). -/
theorem C8_counterexample :
    (resR1 (split_patch c8input)).take 20 ≠
      0 :: (zeroPad5 1 ++ [32] ++ zeroPad5 1 ++ [32] ++ zeroPad5 3 ++ [10]) ∧
    (resR1 (split_patch c8input))[1]? = some 32 ∧
    (zeroPad5 1)[0]? = some 48 := by decide

/-- C8 (amended): every hunk sentinel that split_patch writes (it
writes exactly `mkSentinel` blocks, cf. `C9_theorem`) consists of a
NUL byte, three decimal numbers each right-justified in a 5-character
space-padded field and separated by single spaces, a newline, and a
terminating NUL byte — 20 bytes in total — provided each number's
decimal representation fits in 5 characters. -/
theorem C8_amended (ch : Nat) (x y : Int)
    (hch : (intDecCh (ch : Int)).length ≤ 5)
    (hx : (intDecCh x).length ≤ 5) (hy : (intDecCh y).length ≤ 5) :
    mkSentinel ch x y =
      0 :: (fmt5 (ch : Int) ++ [32] ++ fmt5 x ++ [32] ++ fmt5 y ++ [10, 0]) ∧
    (mkSentinel ch x y).length = 20 ∧
    (fmt5 (ch : Int)).length = 5 ∧ (fmt5 x).length = 5 ∧ (fmt5 y).length = 5 := by
  have hl : ∀ n : Int, (intDecCh n).length ≤ 5 → (fmt5 n).length = 5 := by
    intro n hn
    simp only [fmt5, List.length_append, List.length_replicate]
    omega
  have h1 := hl _ hch
  have h2 := hl _ hx
  have h3 := hl _ hy
  have hlen : (0 :: (fmt5 (ch : Int) ++ [32] ++ fmt5 x ++ [32] ++ fmt5 y ++ [10, 0])).length = 20 := by
    simp only [List.length_cons, List.length_append, h1, h2, h3]
    rfl
  refine ⟨?_, ?_, h1, h2, h3⟩
  · rw [mkSentinel]
    exact List.take_of_length_le (le_of_eq hlen)
  · rw [mkSentinel, List.take_of_length_le (le_of_eq hlen), hlen]

/-- C8 amended witness at chunk 1, line 1, count 3. -/
theorem C8_witness :
    mkSentinel 1 1 3 =
      0 :: (fmt5 ((1 : Nat) : Int) ++ [32] ++ fmt5 1 ++ [32] ++ fmt5 3 ++ [10, 0]) ∧
    (mkSentinel 1 1 3).length = 20 := by
  have h := C8_amended 1 1 3 (by decide) (by decide) (by decide)
  exact ⟨h.1, h.2.1⟩

/-- C9: split_patch returns 0 whenever it detects a malformed context
or unified patch line, and otherwise returns the number of hunks it
parsed: r1 consists of exactly that many sentinel-introduced hunk
segments, numbered consecutively from 1. -/
theorem C9_theorem (input : List Nat) :
    (∀ n, split_patch input = SplitRes.fail n →
      splitRetval (split_patch input) = 0) ∧
    (∀ r1 r2 ch, split_patch input = SplitRes.ok r1 r2 ch →
      splitRetval (split_patch input) = ch ∧
      ∃ segs : List (Int × Int × List Nat),
        segs.length = ch ∧ r1 = renderSegs 0 segs) := by
  constructor
  · intro n h; rw [h]; rfl
  · intro r1 r2 ch h
    refine ⟨by rw [h]; rfl, ?_⟩
    unfold split_patch at h
    revert h
    rcases hrun : splitLoop (input.length + 1) input initPSt
      with n | ⟨l1, l2⟩ | ⟨r1', r2', ch'⟩
    · intro h; simp at h
    · intro h; simp at h
    · simp only
      split
      · intro h; simp at h
      · intro h
        obtain ⟨rfl, rfl, rfl⟩ : r1' = r1 ∧ r2' = r2 ∧ ch' = ch := by
          cases h; exact ⟨rfl, rfl, rfl⟩
        exact splitLoop_segs _ _ _
          ⟨by simp [initPSt], [], rfl, rfl, fun hc => by simp [initPSt] at hc⟩ _ _ _ hrun

/-- C9 witness: on the concrete patch `c8input` the loop returns one
hunk, r1 is one rendered segment. -/
theorem C9_witness :
    splitRetval (split_patch c8input) = 1 ∧
    ∃ segs : List (Int × Int × List Nat),
      segs.length = 1 ∧ resR1 (split_patch c8input) = renderSegs 0 segs := by
  have h := (C9_theorem c8input).2
    (resR1 (split_patch c8input))
    [0,32,32,32,32,49,32,32,32,32,32,49,32,32,32,32,32,51,10,0,97,10,66,10,99,10]
    1 (by decide)
  exact ⟨h.1, h.2⟩

/-- C10: the claim fails — on the 16-byte input `"@@ -1,0 +1,0 @@\n"`
split_patch writes a 20-byte sentinel into each output stream, which
exceeds the input length: the buffers malloc'd with the input's length
are overrun and the final length check aborts the process. -/
theorem C10_theorem :
    split_patch c10input = SplitRes.overrun 20 20 ∧
    c10input.length = 16 := by decide

theorem byteAt_eq_zero (S : List Nat) (p : Nat) (h : S.length ≤ p) :
    byteAt S p = 0 := by
  simp [byteAt]
  omega

theorem byteAt_lt (S : List Nat) (p : Nat) (h : byteAt S p ≠ 0) :
    p < S.length := by
  by_contra hc
  exact h (byteAt_eq_zero S p (by omega))

theorem byteAt_mem (S : List Nat) (p : Nat) (h : p < S.length) :
    byteAt S p ∈ S := by
  simp only [byteAt, dif_pos h]
  exact S.get_mem p h

theorem skipBlankLines_spec (S : List Nat) :
    ∀ fuel p start pfx sol, start ≤ p → S.length - p < fuel →
    start ≤ (skipBlankLines S fuel start p pfx sol).1 ∧
    (skipBlankLines S fuel start p pfx sol).2.1 =
      pfx + ((skipBlankLines S fuel start p pfx sol).1 - start) ∧
    ((skipBlankLines S fuel start p pfx sol).1 = start ∨
     (skipBlankLines S fuel start p pfx sol).1 ≤ S.length) := by
  intro fuel
  induction fuel with
  | zero => intro p start pfx sol _ hf; exact absurd hf (by omega)
  | succ fuel ih =>
    intro p start pfx sol hsp hf
    rw [skipBlankLines]
    by_cases hb : isBlankNL (byteAt S p) = true
    · have hplen : p < S.length := by
        refine byteAt_lt S p ?_
        intro h0; rw [h0] at hb; simp [isBlankNL] at hb
      rw [if_pos hb]
      by_cases h10 : byteAt S p = 10
      · rw [if_pos h10]
        obtain ⟨ha, hb2, hc⟩ := ih (p + 1) (p + 1) (pfx + (p + 1 - start)) true
          (le_refl _) (by omega)
        refine ⟨by omega, by omega, ?_⟩
        rcases hc with hc | hc
        · right; omega
        · right; exact hc
      · rw [if_neg h10]
        obtain ⟨ha, hb2, hc⟩ := ih (p + 1) start pfx false (by omega) (by omega)
        exact ⟨ha, hb2, hc⟩
    · rw [if_neg hb]
      exact ⟨le_refl _, by simp, Or.inl rfl⟩

theorem skipWordBlanks_spec (S : List Nat) :
    ∀ fuel p pfx sol, S.length - p < fuel →
    p ≤ (skipWordBlanks S fuel p pfx sol).1 ∧
    (skipWordBlanks S fuel p pfx sol).2.1 =
      pfx + ((skipWordBlanks S fuel p pfx sol).1 - p) ∧
    ((skipWordBlanks S fuel p pfx sol).1 = p ∨
     (skipWordBlanks S fuel p pfx sol).1 ≤ S.length) := by
  intro fuel
  induction fuel with
  | zero => intro p pfx sol hf; exact absurd hf (by omega)
  | succ fuel ih =>
    intro p pfx sol hf
    rw [skipWordBlanks]
    by_cases hb : (p < S.length && isBlank (byteAt S p)) = true
    · rw [if_pos hb]
      have hplen : p < S.length := by
        simp only [Bool.and_eq_true, decide_eq_true_eq] at hb
        exact hb.1
      obtain ⟨ha, hb2, hc⟩ := ih (p + 1) (pfx + 1) false (by omega)
      refine ⟨by omega, by omega, ?_⟩
      rcases hc with hc | hc
      · right; omega
      · right; exact hc
    · rw [if_neg hb]
      exact ⟨le_refl _, by simp, Or.inl rfl⟩

theorem findNul_spec (S : List Nat) :
    ∀ fuel p, S.length - p < fuel →
    p ≤ findNul S fuel p ∧ (findNul S fuel p = p ∨ findNul S fuel p ≤ S.length) := by
  intro fuel
  induction fuel with
  | zero => intro p hf; exact absurd hf (by omega)
  | succ fuel ih =>
    intro p hf
    rw [findNul]
    by_cases h0 : byteAt S p = 0
    · rw [if_pos h0]; exact ⟨le_refl _, Or.inl rfl⟩
    · rw [if_neg h0]
      have hplen : p < S.length := byteAt_lt S p h0
      obtain ⟨ha, hb⟩ := ih (p + 1) (by omega)
      refine ⟨by omega, ?_⟩
      rcases hb with hb | hb
      · right; omega
      · right; exact hb

theorem lineEnd_spec (S : List Nat) :
    ∀ fuel p, S.length - p < fuel →
    p ≤ lineEnd S fuel p ∧ (lineEnd S fuel p = p ∨ lineEnd S fuel p ≤ S.length) ∧
    (p < S.length → p < lineEnd S fuel p ∧ lineEnd S fuel p ≤ S.length) := by
  intro fuel
  induction fuel with
  | zero => intro p hf; exact absurd hf (by omega)
  | succ fuel ih =>
    intro p hf
    rw [lineEnd]
    by_cases hp : p < S.length
    · rw [if_pos hp]
      by_cases h10 : byteAt S p = 10
      · rw [if_pos h10]
        exact ⟨by omega, Or.inr (by omega), fun _ => ⟨by omega, by omega⟩⟩
      · rw [if_neg h10]
        obtain ⟨ha, hb, hc⟩ := ih (p + 1) (by omega)
        by_cases hp1 : p + 1 < S.length
        · obtain ⟨hc1, hc2⟩ := hc hp1
          exact ⟨by omega, Or.inr (by omega), fun _ => ⟨by omega, by omega⟩⟩
        · have : p + 1 = S.length := by omega
          rcases hb with hb | hb
          · exact ⟨by omega, Or.inr (by omega), fun _ => ⟨by omega, by omega⟩⟩
          · exact ⟨by omega, Or.inr hb, fun _ => ⟨by omega, hb⟩⟩
    · rw [if_neg hp]
      exact ⟨le_refl _, Or.inl rfl, fun h => absurd h hp⟩

theorem wordExtend_spec (S : List Nat) (cond : Nat → Bool) :
    ∀ fuel p, S.length - p < fuel →
    p ≤ wordExtend S cond fuel p ∧
    (wordExtend S cond fuel p = p ∨ wordExtend S cond fuel p ≤ S.length) := by
  intro fuel
  induction fuel with
  | zero => intro p hf; exact absurd hf (by omega)
  | succ fuel ih =>
    intro p hf
    rw [wordExtend]
    by_cases hb : (p < S.length && cond (byteAt S p)) = true
    · rw [if_pos hb]
      have hplen : p < S.length := by
        simp only [Bool.and_eq_true, decide_eq_true_eq] at hb
        exact hb.1
      obtain ⟨ha, hb2⟩ := ih (p + 1) (by omega)
      refine ⟨by omega, ?_⟩
      rcases hb2 with hb2 | hb2
      · right; omega
      · right; exact hb2
    · rw [if_neg hb]
      exact ⟨le_refl _, Or.inl rfl⟩

theorem skipTrailBlank_spec (S : List Nat) :
    ∀ fuel cp2 cp3 sol, cp2 ≤ cp3 → S.length - cp3 < fuel →
    cp2 ≤ (skipTrailBlank S fuel cp2 cp3 sol).1 ∧
    ((skipTrailBlank S fuel cp2 cp3 sol).1 = cp2 ∨
     (skipTrailBlank S fuel cp2 cp3 sol).1 ≤ S.length) := by
  intro fuel
  induction fuel with
  | zero => intro cp2 cp3 sol _ hf; exact absurd hf (by omega)
  | succ fuel ih =>
    intro cp2 cp3 sol hle hf
    rw [skipTrailBlank]
    by_cases hb : isBlankNL (byteAt S cp3) = true
    · have hplen : cp3 < S.length := by
        refine byteAt_lt S cp3 ?_
        intro h0; rw [h0] at hb; simp [isBlankNL] at hb
      rw [if_pos hb]
      by_cases h10 : byteAt S cp3 = 10
      · rw [if_pos h10]
        obtain ⟨ha, hb2⟩ := ih (cp3 + 1) (cp3 + 1) true (le_refl _) (by omega)
        refine ⟨by omega, ?_⟩
        rcases hb2 with hb2 | hb2
        · right; omega
        · right; exact hb2
      · rw [if_neg h10]
        exact ih cp2 (cp3 + 1) false (by omega) (by omega)
    · rw [if_neg hb]
      exact ⟨le_refl _, Or.inl rfl⟩

theorem extTrail_spec (S : List Nat) :
    ∀ fuel cp2 sol, S.length - cp2 < fuel →
    cp2 ≤ (extTrail S fuel cp2 sol).1 ∧
    ((extTrail S fuel cp2 sol).1 = cp2 ∨ (extTrail S fuel cp2 sol).1 ≤ S.length) := by
  intro fuel
  induction fuel with
  | zero => intro cp2 sol hf; exact absurd hf (by omega)
  | succ fuel ih =>
    intro cp2 sol hf
    rw [extTrail]
    by_cases hb : (cp2 < S.length && isBlankNL (byteAt S cp2)) = true
    · rw [if_pos hb]
      have hplen : cp2 < S.length := by
        simp only [Bool.and_eq_true, decide_eq_true_eq] at hb
        exact hb.1
      by_cases h10 : byteAt S cp2 = 10
      · rw [if_pos h10]
        exact ⟨by omega, Or.inr (by omega)⟩
      · rw [if_neg h10]
        obtain ⟨ha, hb2⟩ := ih (cp2 + 1) false (by omega)
        refine ⟨by omega, ?_⟩
        rcases hb2 with hb2 | hb2
        · right; omega
        · right; exact hb2
    · rw [if_neg hb]
      exact ⟨le_refl _, Or.inl rfl⟩

theorem phaseA_spec (S : List Nat) (ty : SplitType) (start0 : Nat) (sol0 : Bool)
    (h0 : start0 ≤ S.length) :
    start0 ≤ (phaseA S ty start0 sol0).1 ∧
    (phaseA S ty start0 sol0).1 ≤ S.length ∧
    (phaseA S ty start0 sol0).2.1 = (phaseA S ty start0 sol0).1 - start0 := by
  unfold phaseA
  split
  · obtain ⟨h1, h2, h3⟩ := skipBlankLines_spec S (S.length + 1) start0 start0 0 sol0
      (le_refl _) (by omega)
    refine ⟨h1, ?_, by omega⟩
    rcases h3 with h3 | h3
    · omega
    · exact h3
  · exact ⟨le_refl _, h0, by simp⟩

theorem phaseAB_spec (S : List Nat) (ty : SplitType) (start0 : Nat) (sol0 : Bool)
    (h0 : start0 ≤ S.length) :
    start0 ≤ (phaseAB S ty start0 sol0).1 ∧
    (phaseAB S ty start0 sol0).1 ≤ S.length ∧
    (phaseAB S ty start0 sol0).2.1 = (phaseAB S ty start0 sol0).1 - start0 := by
  obtain ⟨a1, a2, a3⟩ := phaseA_spec S ty start0 sol0 h0
  unfold phaseAB
  split
  · next hguard =>
    obtain ⟨b1, b2, b3⟩ := skipWordBlanks_spec S (S.length + 1)
      (phaseA S ty start0 sol0).1 (phaseA S ty start0 sol0).2.1
      (phaseA S ty start0 sol0).2.2 (by omega)
    clear hguard
    refine ⟨by omega, ?_, ?_⟩
    · rcases b3 with b3 | b3
      · omega
      · exact b3
    · rw [b2]
      omega
  · exact ⟨a1, a2, a3⟩

theorem phaseAB_noIB (S : List Nat) (ty : SplitType) (start0 : Nat) (sol0 : Bool)
    (h : ty.ignoreBlanks = false) :
    phaseAB S ty start0 sol0 = (start0, 0, sol0) := by
  unfold phaseAB phaseA
  simp [h]

theorem wordScan_spec (S : List Nat) (ty : SplitType) (start : Nat)
    (hs : start ≤ S.length) :
    start < wordScan S ty start ∧
    (start < S.length → wordScan S ty start ≤ S.length) ∧
    wordScan S ty start ≤ S.length + 1 := by
  unfold wordScan
  have hw1 := wordExtend_spec S isBlank (S.length + 1) (start + 1) (by omega)
  have hw2 := wordExtend_spec S (wordCont ty) (S.length + 1) (start + 1) (by omega)
  split
  · exact ⟨by omega, fun h => by omega, by omega⟩
  · split
    · exact ⟨by omega, fun h => by omega, by omega⟩
    · exact ⟨by omega, fun h => by omega, by omega⟩

theorem phaseC_spec (S : List Nat) (ty : SplitType) (start : Nat) (sol : Bool)
    (hs : start ≤ S.length) :
    start ≤ (phaseC S ty start sol).1 ∧
    (phaseC S ty start sol).1 ≤ S.length + 1 ∧
    (start < S.length → start < (phaseC S ty start sol).1) ∧
    (ty.byword = true → start < (phaseC S ty start sol).1) ∧
    (noNul S → (ty.byword = false ∨ start < S.length) →
      (phaseC S ty start sol).1 ≤ S.length) := by
  unfold phaseC
  split
  · next hsent =>
    simp only [Bool.and_eq_true, decide_eq_true_eq] at hsent
    obtain ⟨f1, f2⟩ := findNul_spec S (S.length + 1) (start + 19) (by omega)
    refine ⟨by omega, by omega, fun _ => by omega, fun _ => by omega, ?_⟩
    intro hnn _
    have hlt : start < S.length := by omega
    exact absurd hsent.1 (hnn _ (byteAt_mem S start hlt))
  · next hsent =>
    split
    · next hline =>
      obtain ⟨l1, l2, l3⟩ := lineEnd_spec S (S.length + 1) start (by omega)
      simp only [Bool.not_eq_true'] at hline
      refine ⟨l1, ?_, fun h => (l3 h).1, ?_, ?_⟩
      · rcases l2 with l2 | l2 <;> omega
      · intro hb
        rw [hline] at hb
        cases hb
      · intro _ _
        rcases l2 with l2 | l2 <;> omega
    · next hline =>
      obtain ⟨w1, w2, w3⟩ := wordScan_spec S ty start hs
      simp only [Bool.not_eq_true', Bool.not_eq_false] at hline
      refine ⟨by omega, by omega, fun h => by omega, fun _ => w1, ?_⟩
      intro hnn hc
      rcases hc with hc | hc
      · rw [hline] at hc; cases hc
      · exact w2 hc

theorem phaseD_spec (S : List Nat) (ty : SplitType) (cp : Nat) (sol : Bool) :
    cp ≤ (phaseD S ty cp sol).1 ∧
    ((phaseD S ty cp sol).1 = cp ∨ (phaseD S ty cp sol).1 ≤ S.length) := by
  unfold phaseD
  split
  · exact skipTrailBlank_spec S (S.length + 1) cp cp sol (le_refl _) (by omega)
  · exact ⟨le_refl _, Or.inl rfl⟩

theorem phaseDE_spec (S : List Nat) (ty : SplitType) (start cp : Nat) (sol : Bool) :
    cp ≤ (phaseDE S ty start cp sol).1 ∧
    ((phaseDE S ty start cp sol).1 = cp ∨ (phaseDE S ty start cp sol).1 ≤ S.length) := by
  obtain ⟨d1, d2⟩ := phaseD_spec S ty cp sol
  unfold phaseDE
  split
  · obtain ⟨e1, e2⟩ := extTrail_spec S (S.length + 1) (phaseD S ty cp sol).1
      (phaseD S ty cp sol).2 (by omega)
    refine ⟨by omega, ?_⟩
    rcases e2 with e2 | e2
    · rcases d2 with d2 | d2
      · left; omega
      · right; omega
    · right; exact e2
  · exact ⟨d1, d2⟩

theorem phaseDE_noIB (S : List Nat) (ty : SplitType) (start cp : Nat) (sol : Bool)
    (h : ty.ignoreBlanks = false) :
    phaseDE S ty start cp sol = (cp, sol) := by
  unfold phaseDE phaseD
  simp [h]

theorem splitStep_spec (S : List Nat) (ty : SplitType) (start0 : Nat) (sol0 : Bool)
    (h0 : start0 < S.length) :
    ((splitStep S ty start0 sol0).1.start - (splitStep S ty start0 sol0).1.pfx = start0) ∧
    ((splitStep S ty start0 sol0).1.pfx ≤ (splitStep S ty start0 sol0).1.start) ∧
    ((splitStep S ty start0 sol0).1.len ≤ (splitStep S ty start0 sol0).1.plen) ∧
    ((splitStep S ty start0 sol0).1.start + (splitStep S ty start0 sol0).1.plen =
      (splitStep S ty start0 sol0).2.1) ∧
    (start0 < (splitStep S ty start0 sol0).2.1) ∧
    ((splitStep S ty start0 sol0).2.1 ≤ S.length + 1) ∧
    (noNul S → (ty.byword && ty.ignoreBlanks) = false →
      (splitStep S ty start0 sol0).2.1 ≤ S.length) := by
  obtain ⟨a1, a2, a3⟩ := phaseAB_spec S ty start0 sol0 (le_of_lt h0)
  obtain ⟨c1, c2, c3, c4, c5⟩ := phaseC_spec S ty (phaseAB S ty start0 sol0).1
    (phaseAB S ty start0 sol0).2.2 a2
  obtain ⟨d1, d2⟩ := phaseDE_spec S ty (phaseAB S ty start0 sol0).1
    (phaseC S ty (phaseAB S ty start0 sol0).1 (phaseAB S ty start0 sol0).2.2).1
    (phaseC S ty (phaseAB S ty start0 sol0).1 (phaseAB S ty start0 sol0).2.2).2
  have hprog : start0 <
      (phaseDE S ty (phaseAB S ty start0 sol0).1
        (phaseC S ty (phaseAB S ty start0 sol0).1 (phaseAB S ty start0 sol0).2.2).1
        (phaseC S ty (phaseAB S ty start0 sol0).1 (phaseAB S ty start0 sol0).2.2).2).1 := by
    by_cases hlt : (phaseAB S ty start0 sol0).1 < S.length
    · have := c3 hlt
      omega
    · omega
  have hst : (splitStep S ty start0 sol0).1.start = (phaseAB S ty start0 sol0).1 := rfl
  have hpf : (splitStep S ty start0 sol0).1.pfx = (phaseAB S ty start0 sol0).2.1 := rfl
  have hln : (splitStep S ty start0 sol0).1.len =
      (phaseC S ty (phaseAB S ty start0 sol0).1 (phaseAB S ty start0 sol0).2.2).1 -
        (phaseAB S ty start0 sol0).1 := rfl
  have hpl : (splitStep S ty start0 sol0).1.plen =
      (phaseDE S ty (phaseAB S ty start0 sol0).1
        (phaseC S ty (phaseAB S ty start0 sol0).1 (phaseAB S ty start0 sol0).2.2).1
        (phaseC S ty (phaseAB S ty start0 sol0).1 (phaseAB S ty start0 sol0).2.2).2).1 -
        (phaseAB S ty start0 sol0).1 := rfl
  have hr2 : (splitStep S ty start0 sol0).2.1 =
      (phaseDE S ty (phaseAB S ty start0 sol0).1
        (phaseC S ty (phaseAB S ty start0 sol0).1 (phaseAB S ty start0 sol0).2.2).1
        (phaseC S ty (phaseAB S ty start0 sol0).1 (phaseAB S ty start0 sol0).2.2).2).1 := rfl
  refine ⟨?_, ?_, ?_, ?_, ?_, ?_, ?_⟩
  · rw [hst, hpf]
    omega
  · rw [hst, hpf]
    omega
  · rw [hln, hpl]
    omega
  · rw [hst, hpl, hr2]
    omega
  · rw [hr2]
    exact hprog
  · rw [hr2]
    rcases d2 with d2 | d2 <;> omega
  · intro hnn hne
    rw [hr2]
    by_cases hib : ty.ignoreBlanks = true
    · have hbw : ty.byword = false := by
        cases hb : ty.byword
        · rfl
        · rw [hb, hib] at hne; cases hne
      have hcle := c5 hnn (Or.inl hbw)
      rcases d2 with d2 | d2 <;> omega
    · have hib0 : ty.ignoreBlanks = false := by
        cases h : ty.ignoreBlanks
        · rfl
        · exact absurd h hib
      rw [phaseAB_noIB S ty start0 sol0 hib0] at c5 ⊢
      rw [phaseDE_noIB S ty _ _ _ hib0]
      exact c5 hnn (Or.inr h0)

theorem drop_take_append (L : List Nat) (a b c : Nat) (hab : a ≤ b) (hbc : b ≤ c) :
    (L.drop a).take (b - a) ++ (L.drop b).take (c - b) = (L.drop a).take (c - a) := by
  have h1 : L.drop b = (L.drop a).drop (b - a) := by
    rw [List.drop_drop]
    congr 1
    omega
  have h2 : c - a = (b - a) + (c - b) := by omega
  rw [h2, List.take_add, h1]

theorem seg3_eq (L : List Nat) (start st ln pl pf next : Nat)
    (h1 : st - pf = start) (h2 : pf ≤ st) (h3 : ln ≤ pl) (h4 : st + pl = next) :
    (L.drop (st - pf)).take pf ++ (L.drop st).take ln ++
      (L.drop (st + ln)).take (pl - ln) = (L.drop start).take (next - start) := by
  have e1 : (L.drop (st - pf)).take pf = (L.drop start).take (st - start) := by
    rw [h1]
    congr 1
    omega
  have e2 : (L.drop st).take ln = (L.drop st).take ((st + ln) - st) := by
    congr 1
    omega
  have e3 : (L.drop (st + ln)).take (pl - ln) =
      (L.drop (st + ln)).take (next - (st + ln)) := by
    congr 1
    omega
  rw [e1, e2, e3, drop_take_append L start st (st + ln) (by omega) (by omega),
    drop_take_append L start (st + ln) next (by omega) (by omega)]

theorem block_eq (S : List Nat) (e : Elmnt) (start next : Nat)
    (h1 : e.start - e.pfx = start) (h2 : e.pfx ≤ e.start) (h3 : e.len ≤ e.plen)
    (h4 : e.start + e.plen = next) :
    prefixBytes S e ++ canonicalBytes S e ++ trailingBytes S e =
      ((S ++ [0]).drop start).take (next - start) :=
  seg3_eq (S ++ [0]) start e.start e.len e.plen e.pfx next h1 h2 h3 h4

theorem splitGo_reconstruct (S : List Nat) (ty : SplitType) :
    ∀ fuel start sol, start ≤ S.length + 1 → S.length ≤ fuel + start →
    ∃ E, start ≤ E ∧ S.length ≤ E ∧ E ≤ S.length + 1 ∧
      (splitGo S ty fuel start sol).flatMap
        (fun e => prefixBytes S e ++ canonicalBytes S e ++ trailingBytes S e) =
        ((S ++ [0]).drop start).take (E - start) ∧
      (noNul S → (ty.byword && ty.ignoreBlanks) = false → start ≤ S.length →
        E = S.length) := by
  intro fuel
  induction fuel with
  | zero =>
    intro start sol h1 h2
    exact ⟨start, le_refl _, by omega, h1, by simp [splitGo],
      fun _ _ h => by omega⟩
  | succ fuel ih =>
    intro start sol h1 h2
    by_cases hlt : start < S.length
    · obtain ⟨s1, s2, s3, s4, s5, s6, s7⟩ := splitStep_spec S ty start sol hlt
      obtain ⟨E, e1, e2, e3, e4, e5⟩ :=
        ih (splitStep S ty start sol).2.1 (splitStep S ty start sol).2.2 s6 (by omega)
      refine ⟨E, by omega, e2, e3, ?_, fun hn hc _ => e5 hn hc (s7 hn hc)⟩
      simp only [splitGo, if_pos hlt, List.flatMap_cons]
      rw [block_eq S _ start ((splitStep S ty start sol).2.1) s1 s2 s3 s4, e4,
        drop_take_append (S ++ [0]) start ((splitStep S ty start sol).2.1) E
          (by omega) e1]
    · exact ⟨start, le_refl _, by omega, h1, by simp [splitGo, hlt],
        fun _ _ h => by omega⟩

/-- C1 (amended): for every byte stream `S` and every mode-flag
combination, concatenating for each element of the tokenisation of `S`,
in order, its prefix bytes, canonical bytes and trailing bytes yields
either `S` exactly or `S` followed by the single NUL terminator byte
that load.c appends to every buffer; and it yields `S` exactly whenever
`S` contains no NUL byte and the flags do not combine ByWord with
IgnoreBlanks. -/
theorem C1_theorem (S : List Nat) (ty : SplitType) :
    (reconstruct S ty = S ∨ reconstruct S ty = S ++ [0]) ∧
    (noNul S → (ty.byword && ty.ignoreBlanks) = false → reconstruct S ty = S) := by
  obtain ⟨E, e1, e2, e3, e4, e5⟩ :=
    splitGo_reconstruct S ty (S.length + 1) 0 true (by omega) (by omega)
  have hr : reconstruct S ty = (S ++ [0]).take E := by
    unfold reconstruct wiggle_split_internal
    rw [e4]
    simp
  constructor
  · by_cases hE : E = S.length
    · left
      rw [hr, hE]
      exact List.take_left S [0]
    · right
      have hE1 : E = S.length + 1 := by omega
      rw [hr, hE1]
      apply List.take_of_length_le
      simp
  · intro hn hc
    have hE := e5 hn hc (by omega)
    rw [hr, hE]
    exact List.take_left S [0]

/-- C1 counterexample to the original claim: for the one-byte stream
consisting of a single space, in ByWord mode with IgnoreBlanks, the
reconstruction is the stream plus the NUL terminator, not the stream
itself. -/
theorem C1_counterexample :
    reconstruct [32] ⟨true, true, false, false⟩ = [32, 0] ∧
      reconstruct [32] ⟨true, true, false, false⟩ ≠ [32] := by
  constructor
  · rfl
  · decide

/-- C1 witness: on the concrete NUL-free stream "a\nb\n" in ByLine
mode the reconstruction returns the stream exactly. -/
theorem C1_witness :
    reconstruct [97, 10, 98, 10] ⟨false, false, false, false⟩ = [97, 10, 98, 10] :=
  (C1_theorem [97, 10, 98, 10] ⟨false, false, false, false⟩).2
    (by unfold noNul; decide) (by decide)

theorem validCsl_parts (cs : List Csl) (x y : Nat) (hv : validCsl cs x y = true) :
    cs ≠ [] ∧ cs.getLast? = some ⟨x, y, 0⟩ ∧ ∀ e ∈ cs.dropLast, e.len ≠ 0 := by
  simp only [validCsl, Bool.and_eq_true, beq_iff_eq, List.all_eq_true, decide_eq_true_eq,
    Bool.not_eq_true', List.isEmpty_eq_false] at hv
  exact ⟨hv.1.1.1, hv.1.1.2, hv.1.2⟩

theorem cslGet_lt (cs : List Csl) (i : Nat) (h : i < cs.length) :
    cslGet cs i = cs.get ⟨i, h⟩ := by
  simp [cslGet, List.getD_eq_getElem?_getD, List.getElem?_eq_getElem h]

theorem validCsl_len0 (cs : List Csl) (x y : Nat) (hv : validCsl cs x y = true)
    (i : Nat) (h : i < cs.length) (h0 : (cslGet cs i).len = 0) :
    cslGet cs i = ⟨x, y, 0⟩ := by
  obtain ⟨hne, hlast, hall⟩ := validCsl_parts cs x y hv
  by_cases hi : i < cs.length - 1
  · exfalso
    have hdl : i < cs.dropLast.length := by
      rw [List.length_dropLast]
      omega
    have hmem : cs.dropLast.get ⟨i, hdl⟩ ∈ cs.dropLast := List.get_mem _ _ hdl
    have := hall _ hmem
    rw [List.get_eq_getElem, List.getElem_dropLast] at this
    rw [cslGet_lt cs i h, List.get_eq_getElem] at h0
    exact this h0
  · have hieq : i = cs.length - 1 := by omega
    rw [List.getLast?_eq_getElem?, List.getElem?_eq_getElem (by omega : cs.length - 1 < cs.length)]
      at hlast
    rw [cslGet_lt cs i h, List.get_eq_getElem]
    have : cs[i] = cs[cs.length - 1] := by
      congr 1
    rw [this]
    exact Option.some_injective _ hlast

theorem validCsl_get_lt (cs : List Csl) (x y : Nat) (hv : validCsl cs x y = true)
    (i : Nat) (h : i < cs.length) (hne : (cslGet cs i).len ≠ 0) :
    i + 1 < cs.length := by
  by_contra hc
  have hieq : i = cs.length - 1 := by omega
  obtain ⟨hne', hlast, _⟩ := validCsl_parts cs x y hv
  rw [List.getLast?_eq_getElem?, List.getElem?_eq_getElem (by omega : cs.length - 1 < cs.length)]
    at hlast
  apply hne
  rw [cslGet_lt cs i h, List.get_eq_getElem]
  have : cs[i] = cs[cs.length - 1] := by
    congr 1
  rw [this, Option.some_injective _ hlast]

theorem validCsl_pos (cs : List Csl) (x y : Nat) (hv : validCsl cs x y = true) :
    0 < cs.length := by
  obtain ⟨hne, _, _⟩ := validCsl_parts cs x y hv
  cases cs with
  | nil => exact absurd rfl hne
  | cons a l => simp

theorem cslAdvanceA_lt (cs : List Csl) (x y : Nat) (pos : Int)
    (hv : validCsl cs x y = true) :
    ∀ fuel c1 r, c1 < cs.length → cslAdvanceA cs pos fuel c1 = some r →
      r < cs.length := by
  intro fuel
  induction fuel with
  | zero =>
    intro c1 r h hr
    simp [cslAdvanceA] at hr
  | succ fuel ih =>
    intro c1 r h hr
    simp only [cslAdvanceA] at hr
    split at hr
    · rename_i hcond
      exact ih (c1 + 1) r (validCsl_get_lt cs x y hv c1 h hcond.2) hr
    · injection hr with hh
      omega

theorem cslAdvanceB_lt (cs : List Csl) (x y : Nat) (pos : Int)
    (hv : validCsl cs x y = true) :
    ∀ fuel c2 r, c2 < cs.length → cslAdvanceB cs pos fuel c2 = some r →
      r < cs.length := by
  intro fuel
  induction fuel with
  | zero =>
    intro c2 r h hr
    simp [cslAdvanceB] at hr
  | succ fuel ih =>
    intro c2 r h hr
    simp only [cslAdvanceB] at hr
    split at hr
    · rename_i hcond
      exact ih (c2 + 1) r (validCsl_get_lt cs x y hv c2 h hcond.2) hr
    · injection hr with hh
      omega

theorem hdrUpd_frame (bf : List MElmnt) (cs2 : List Csl) (st0 st : MSt)
    (hr : hdrUpd bf cs2 st0 = some st) :
    st.a = st0.a ∧ st.b = st0.b ∧ st.c = st0.c ∧ st.c1 = st0.c1 ∧ st.c2 = st0.c2 ∧
      st.ignored = st0.ignored := by
  unfold hdrUpd at hr
  split at hr
  · injection hr with hh
    subst hh
    exact ⟨rfl, rfl, rfl, rfl, rfl, rfl⟩
  · split at hr
    · cases hr
    · injection hr with hh
      subst hh
      exact ⟨rfl, rfl, rfl, rfl, rfl, rfl⟩

theorem mergeTail_spec (cs1 cs2 : List Csl) (alen blen clen : Nat)
    (h1 : validCsl cs1 alen blen = true) (h2 : validCsl cs2 blen clen = true)
    (al bl cl : Int) (st st' : MSt) (brk : Bool)
    (hc1 : st.c1 < cs1.length) (hc2 : st.c2 < cs2.length)
    (hr : mergeTail cs1 cs2 al bl cl st = some (st', brk)) :
    st'.a = st.a + al ∧ st'.b = st.b + bl ∧ st'.c = st.c + cl ∧
    st'.ignored = st.ignored ∧
    st'.c1 < cs1.length ∧ st'.c2 < cs2.length ∧
    (brk = true → st'.a = (alen : Int) ∧ st'.b = (blen : Int) ∧ st'.c = (clen : Int)) := by
  unfold mergeTail at hr
  split at hr
  · cases hr
  · rename_i c1' hA
    split at hr
    · cases hr
    · split at hr
      · cases hr
      · rename_i c2' hB
        split at hr
        · cases hr
        · injection hr with hh
          injection hh with hst hbrk
          have hlt1 : c1' < cs1.length :=
            cslAdvanceA_lt cs1 alen blen (st.a + al) h1 (cs1.length + 1) st.c1 c1' hc1 hA
          have hlt2 : c2' < cs2.length :=
            cslAdvanceB_lt cs2 blen clen (st.c + cl) h2 (cs2.length + 1) st.c2 c2' hc2 hB
          subst hst
          refine ⟨rfl, rfl, rfl, rfl, hlt1, hlt2, ?_⟩
          intro hb
          rw [← hbrk] at hb
          simp only [Bool.and_eq_true, decide_eq_true_eq] at hb
          obtain ⟨⟨⟨⟨⟨hz1, hz2⟩, he1⟩, he2⟩, he3⟩, he4⟩ := hb
          have hv1 := validCsl_len0 cs1 alen blen h1 c1' hlt1 hz1
          have hv2 := validCsl_len0 cs2 blen clen h2 c2' hlt2 hz2
          rw [hv1] at he1 he2
          rw [hv2] at he3 he4
          exact ⟨by simpa using he1, by simpa using he2, by simpa using he4⟩

theorem mergeStep_spec (af bf cf : List MElmnt) (cs1 cs2 : List Csl) (ia : Bool)
    (alen blen clen : Nat)
    (h1 : validCsl cs1 alen blen = true) (h2 : validCsl cs2 blen clen = true)
    (st0 : MSt) (m : Merge) (st' : MSt) (brk : Bool)
    (hc1 : st0.c1 < cs1.length) (hc2 : st0.c2 < cs2.length)
    (hr : mergeStep af bf cf cs1 cs2 ia st0 = some (m, st', brk)) :
    st'.a = st0.a + m.al ∧ st'.b = st0.b + m.bl ∧ st'.c = st0.c + m.cl ∧
    st'.c1 < cs1.length ∧ st'.c2 < cs2.length ∧
    (brk = true → st'.a = (alen : Int) ∧ st'.b = (blen : Int) ∧ st'.c = (clen : Int)) := by
  unfold mergeStep at hr
  split at hr
  · cases hr
  · rename_i st1 hH
    split at hr
    · cases hr
    · rename_i m1 hc ig hE
      split at hr
      · cases hr
      · rename_i st2 brk2 hT
        injection hr with hEq
        have hm : m = m1 := (congrArg Prod.fst hEq).symm
        have hst : st' = st2 := (congrArg Prod.fst (congrArg Prod.snd hEq)).symm
        have hbrk : brk = brk2 := (congrArg Prod.snd (congrArg Prod.snd hEq)).symm
        obtain ⟨ha, hb, hc', hd1, hd2, hdig⟩ := hdrUpd_frame bf cs2 st0 st1 hH
        have hx1 : st1.c1 < cs1.length := by
          rw [hd1]
          exact hc1
        have hx2 : st1.c2 < cs2.length := by
          rw [hd2]
          exact hc2
        have hT' := mergeTail_spec cs1 cs2 alen blen clen h1 h2 m1.al m1.bl m1.cl
          { st1 with header_checked := hc, ignored := ig } st2 brk2 hx1 hx2 hT
        obtain ⟨t1, t2, t3, _, t5, t6, t7⟩ := hT'
        rw [hm, hst, hbrk]
        refine ⟨?_, ?_, ?_, t5, t6, t7⟩
        · rw [t1]
          show st1.a + m1.al = st0.a + m1.al
          rw [ha]
        · rw [t2]
          show st1.b + m1.bl = st0.b + m1.bl
          rw [hb]
        · rw [t3]
          show st1.c + m1.cl = st0.c + m1.cl
          rw [hc']

theorem mergeLoop_tiling (af bf cf : List MElmnt) (cs1 cs2 : List Csl) (ia : Bool)
    (alen blen clen : Nat)
    (h1 : validCsl cs1 alen blen = true) (h2 : validCsl cs2 blen clen = true) :
    ∀ fuel st ms endR ig, st.c1 < cs1.length → st.c2 < cs2.length →
      mergeLoop af bf cf cs1 cs2 ia fuel st = some (ms, endR, ig) →
      (ms.map Merge.al).sum = endR.a - st.a ∧
      (ms.map Merge.bl).sum = endR.b - st.b ∧
      (ms.map Merge.cl).sum = endR.c - st.c ∧
      endR.a = (alen : Int) ∧ endR.b = (blen : Int) ∧ endR.c = (clen : Int) := by
  intro fuel
  induction fuel with
  | zero =>
    intro st ms endR ig hc1 hc2 hr
    simp [mergeLoop] at hr
  | succ fuel ih =>
    intro st ms endR ig hc1 hc2 hr
    simp only [mergeLoop] at hr
    split at hr
    · cases hr
    · rename_i m st' brk hS
      obtain ⟨s1, s2, s3, s4, s5, s6⟩ :=
        mergeStep_spec af bf cf cs1 cs2 ia alen blen clen h1 h2 st m st' brk hc1 hc2 hS
      split at hr
      · rename_i hbrk
        injection hr with hEq
        have hms : ms = [m] := (congrArg Prod.fst hEq).symm
        have hend : endR = mergeEndRec st' :=
          (congrArg Prod.fst (congrArg Prod.snd hEq)).symm
        obtain ⟨e1, e2, e3⟩ := s6 hbrk
        rw [hms, hend]
        have hea : (mergeEndRec st').a = st'.a := rfl
        have heb : (mergeEndRec st').b = st'.b := rfl
        have hec : (mergeEndRec st').c = st'.c := rfl
        rw [hea, heb, hec]
        simp only [List.map_cons, List.map_nil, List.sum_cons, List.sum_nil]
        exact ⟨by omega, by omega, by omega, e1, e2, e3⟩
      · split at hr
        · cases hr
        · rename_i ms2 er2 ig2 hRec
          injection hr with hEq
          have hms : ms = m :: ms2 := (congrArg Prod.fst hEq).symm
          have hend : endR = er2 := (congrArg Prod.fst (congrArg Prod.snd hEq)).symm
          obtain ⟨r1, r2, r3, r4, r5, r6⟩ := ih st' ms2 er2 ig2 s4 s5 hRec
          rw [hms, hend]
          simp only [List.map_cons, List.sum_cons]
          exact ⟨by omega, by omega, by omega, r4, r5, r6⟩

/-- C4: for every triple of token files and every pair of valid common
sequence lists, a completed run of the make_merger loop tiles the three
files: the sums of the `al`, `bl` and `cl` fields over all merge
entries equal the element counts of the three files. -/
theorem C4_theorem (af bf cf : List MElmnt) (cs1 cs2 : List Csl) (ia : Bool)
    (fuel : Nat) (ms : List Merge) (endR : Merge) (ig : Nat)
    (h1 : validCsl cs1 af.length bf.length = true)
    (h2 : validCsl cs2 bf.length cf.length = true)
    (hrun : mergeLoop af bf cf cs1 cs2 ia fuel initMSt = some (ms, endR, ig)) :
    (ms.map Merge.al).sum = (af.length : Int) ∧
    (ms.map Merge.bl).sum = (bf.length : Int) ∧
    (ms.map Merge.cl).sum = (cf.length : Int) := by
  have hl1 : initMSt.c1 < cs1.length := validCsl_pos cs1 af.length bf.length h1
  have hl2 : initMSt.c2 < cs2.length := validCsl_pos cs2 bf.length cf.length h2
  obtain ⟨t1, t2, t3, t4, t5, t6⟩ :=
    mergeLoop_tiling af bf cf cs1 cs2 ia af.length bf.length cf.length h1 h2
      fuel initMSt ms endR ig hl1 hl2 hrun
  refine ⟨?_, ?_, ?_⟩
  · rw [t1, t4]
    show (af.length : Int) - 0 = (af.length : Int)
    omega
  · rw [t2, t5]
    show (bf.length : Int) - 0 = (bf.length : Int)
    omega
  · rw [t3, t6]
    show (cf.length : Int) - 0 = (cf.length : Int)
    omega

/-- C4 witness: a concrete completed run (one-element identical files)
whose entry lengths sum to the file lengths. -/
theorem C4_witness :
    (c4ms.map Merge.al).sum = (([mex].length : Nat) : Int) ∧
    (c4ms.map Merge.bl).sum = (([mex].length : Nat) : Int) ∧
    (c4ms.map Merge.cl).sum = (([mex].length : Nat) : Int) :=
  C4_theorem [mex] [mex] [mex] (idCsl 1) (idCsl 1) false 5 c4ms c4end 0
    (by decide) (by decide) (by decide)

theorem mOK_vac (af bf cf : List MElmnt) (v : Merge) (h : v.in_conflict ≠ 1) :
    mOK af bf cf v := fun h1 => absurd h1 h

theorem endDefault_props (af bf cf : List MElmnt) :
    mOK af bf cf endDefault ∧ mBounded af endDefault := by
  constructor
  · exact mOK_vac af bf cf endDefault (by decide)
  · refine ⟨le_refl 0, le_refl 0, ?_⟩
    show (0 : Int) + 0 ≤ (af.length : Int)
    positivity

theorem mget_props (af bf cf : List MElmnt) (arr : List Merge) (i : Int)
    (h : ArrOK af bf cf arr) : mOK af bf cf (mget arr i) ∧ mBounded af (mget arr i) := by
  by_cases hlt : i.toNat < arr.length
  · have : mget arr i = arr.get ⟨i.toNat, hlt⟩ := by
      simp [mget, List.getD_eq_getElem?_getD, List.getElem?_eq_getElem hlt]
    rw [this]
    exact h _ (List.get_mem arr i.toNat hlt)
  · have : mget arr i = endDefault := by
      simp [mget, List.getD_eq_getElem?_getD, List.getElem?_eq_none (le_of_not_lt hlt)]
    rw [this]
    exact endDefault_props af bf cf

theorem ArrOK_set (af bf cf : List MElmnt) (arr : List Merge) (i : Int) (v : Merge)
    (h : ArrOK af bf cf arr) (hv : mOK af bf cf v) (hb : mBounded af v) :
    ArrOK af bf cf (mset arr i v) := by
  intro m hm
  rcases List.mem_or_eq_of_mem_set hm with h1 | h2
  · exact h m h1
  · rw [h2]; exact ⟨hv, hb⟩

theorem mget_set_self (arr : List Merge) (j : Int) (v : Merge) :
    mget (mset arr j v) j = v ∨ (mset arr j v = arr ∧ mget arr j = endDefault) := by
  by_cases h : j.toNat < arr.length
  · left
    simp [mget, mset, List.getD_eq_getElem?_getD, List.getElem?_set_self,
      h]
  · right
    constructor
    · simp [mset, List.set_eq_of_length_le (le_of_not_lt h)]
    · simp [mget, List.getD_eq_getElem?_getD, List.getElem?_eq_none (le_of_not_lt h)]

/-- The backward newline scan returns a break position (or, when it
runs out, a `firstk`) no smaller than any known newline position
`lo ∈ (0, al]`, provided the section fits in the file. -/
theorem backKScan_ge (af : List MElmnt) (a al lo : Int)
    (hlo : 0 < lo) (hloal : lo ≤ al) (hlen : a + al ≤ (af.length : Int))
    (hnl : (fget af (a + lo - 1)).endsLine = true) :
    ∀ (fuel : Nat) (k fk : Int) (nl : Nat),
      k < (fuel : Int) → k ≤ al →
      ((lo ≤ k ∧ (fk = al + 1 ∨ (lo ≤ fk ∧ fk ≤ al))) ∨ (k < lo ∧ lo ≤ fk ∧ fk ≤ al)) →
      (0 < (backKScan af a al fuel k fk nl).1 → lo ≤ (backKScan af a al fuel k fk nl).1) ∧
      ((backKScan af a al fuel k fk nl).1 ≤ 0 → lo ≤ (backKScan af a al fuel k fk nl).2.1) := by
  intro fuel
  induction fuel with
  | zero =>
    intro k fk nl hf hk hinv
    simp only [backKScan]
    constructor
    · intro h0
      exfalso
      omega
    · intro h0
      rcases hinv with ⟨h1, _⟩ | ⟨_, h2, _⟩
      · omega
      · exact h2
  | succ fuel ih =>
    intro k fk nl hf hk hinv
    simp only [backKScan]
    by_cases hkpos : 0 < k
    · rw [if_pos hkpos]
      by_cases hbnd : (af.length : Int) ≤ a + k
      · rw [if_pos hbnd]
        constructor
        · intro _
          rcases hinv with ⟨h1, _⟩ | ⟨h1, _, _⟩
          · exact h1
          · omega
        · intro h0; omega
      · rw [if_neg hbnd]
        by_cases hel : (fget af (a + k - 1)).endsLine = true
        · rw [if_pos hel]
          by_cases hfk : al < fk
          · rw [if_pos hfk]
            have hleft : lo ≤ k ∧ fk = al + 1 := by
              rcases hinv with ⟨h1, h2 | h2⟩ | ⟨_, h2, h3⟩
              · exact ⟨h1, h2⟩
              · omega
              · omega
            by_cases h3 : 3 ≤ nl + 1
            · rw [if_pos h3]
              constructor
              · intro _; exact hleft.1
              · intro h0; exfalso; omega
            · rw [if_neg h3]
              refine ih (k - 1) k (nl + 1) (by omega) (by omega) ?_
              by_cases hkl : lo ≤ k - 1
              · exact Or.inl ⟨hkl, Or.inr ⟨by omega, by omega⟩⟩
              · exact Or.inr ⟨by omega, by omega, by omega⟩
          · rw [if_neg hfk]
            have hfk2 : lo ≤ fk ∧ fk ≤ al := by
              rcases hinv with ⟨h1, h2 | h2⟩ | ⟨_, h2, h3⟩
              · omega
              · exact h2
              · exact ⟨h2, h3⟩
            by_cases h3 : 3 ≤ nl + 1
            · rw [if_pos h3]
              constructor
              · intro _; exact hfk2.1
              · intro h0; exfalso; omega
            · rw [if_neg h3]
              refine ih (k - 1) fk (nl + 1) (by omega) (by omega) ?_
              by_cases hkl : lo ≤ k - 1
              · exact Or.inl ⟨hkl, Or.inr hfk2⟩
              · exact Or.inr ⟨by omega, hfk2.1, hfk2.2⟩
        · rw [if_neg hel]
          have hkne : k ≠ lo := by
            intro he
            apply hel
            rw [he] at *
            exact hnl
          refine ih (k - 1) fk nl (by omega) (by omega) ?_
          rcases hinv with ⟨h1, h2⟩ | ⟨h1, h2, h3⟩
          · exact Or.inl ⟨by omega, h2⟩
          · exact Or.inr ⟨by omega, h2, h3⟩
    · rw [if_neg hkpos]
      constructor
      · intro h0; exfalso; omega
      · intro _
        rcases hinv with ⟨h1, _⟩ | ⟨_, h2, _⟩
        · omega
        · exact h2

/-- The forward newline scan: `firstk ≥ 0` is a newline position below
`al`, a break value below `al` is a nonnegative newline position, and
the results are bounded below by 0 and -1. -/
theorem fwdKScan_inv (af : List MElmnt) (a al : Int) :
    ∀ (fuel : Nat) (k fk : Int) (nl : Nat),
      0 ≤ k → al ≤ k + (fuel : Int) →
      (fk = -1 ∨ (0 ≤ fk ∧ fk < al ∧ (fget af (a + fk)).endsLine = true)) →
      (0 ≤ (fwdKScan af a al fuel k fk nl).2.1 →
        (fget af (a + (fwdKScan af a al fuel k fk nl).2.1)).endsLine = true ∧
        (fwdKScan af a al fuel k fk nl).2.1 < al) ∧
      ((fwdKScan af a al fuel k fk nl).1 < al →
        0 ≤ (fwdKScan af a al fuel k fk nl).1 ∧
        (fget af (a + (fwdKScan af a al fuel k fk nl).1)).endsLine = true) ∧
      (0 ≤ (fwdKScan af a al fuel k fk nl).1 ∧ -1 ≤ (fwdKScan af a al fuel k fk nl).2.1) := by
  intro fuel
  induction fuel with
  | zero =>
    intro k fk nl hk hfuel hinv
    simp only [fwdKScan]
    refine ⟨?_, ?_, hk, ?_⟩
    · intro h0
      have h0' : (0 : Int) ≤ fk := h0
      rcases hinv with h | ⟨h1, h2, h3⟩
      · omega
      · exact ⟨h3, h2⟩
    · intro hlt
      have hlt' : k < al := hlt
      exfalso; omega
    · show (-1 : Int) ≤ fk
      rcases hinv with h | ⟨h1, _, _⟩ <;> omega
  | succ fuel ih =>
    intro k fk nl hk hfuel hinv
    simp only [fwdKScan]
    by_cases hkal : k < al
    · rw [if_pos hkal]
      by_cases hel : (fget af (a + k)).endsLine = true
      · rw [if_pos hel]
        by_cases hfk : fk < 0
        · rw [if_pos hfk]
          by_cases h3 : 3 ≤ nl + 1
          · rw [if_pos h3]
            exact ⟨fun _ => ⟨hel, hkal⟩, fun _ => ⟨hk, hel⟩, hk, show (-1 : Int) ≤ k by omega⟩
          · rw [if_neg h3]
            exact ih (k + 1) k (nl + 1) (by omega) (by omega) (Or.inr ⟨hk, hkal, hel⟩)
        · rw [if_neg hfk]
          have hfk2 : 0 ≤ fk ∧ fk < al ∧ (fget af (a + fk)).endsLine = true := by
            rcases hinv with h | h
            · omega
            · exact h
          by_cases h3 : 3 ≤ nl + 1
          · rw [if_pos h3]
            exact ⟨fun _ => ⟨hfk2.2.2, hfk2.2.1⟩, fun _ => ⟨hfk2.1, hfk2.2.2⟩, hfk2.1, show (-1 : Int) ≤ fk by omega⟩
          · rw [if_neg h3]
            exact ih (k + 1) fk (nl + 1) (by omega) (by omega) (Or.inr hfk2)
      · rw [if_neg hel]
        exact ih (k + 1) fk nl (by omega) (by omega) hinv
    · rw [if_neg hkal]
      refine ⟨?_, ?_, hk, ?_⟩
      · intro h0
        have h0' : (0 : Int) ≤ fk := h0
        rcases hinv with h | ⟨h1, h2, h3⟩
        · omega
        · exact ⟨h3, h2⟩
      · intro hlt
        have hlt' : k < al := hlt
        exfalso; omega
      · show (-1 : Int) ≤ fk
        rcases hinv with h | ⟨h1, _, _⟩ <;> omega

theorem clearRange_ok (af bf cf : List MElmnt) :
    ∀ (fuel : Nat) (j i : Int) (arr : List Merge),
      ArrOK af bf cf arr → ArrOK af bf cf (clearRange arr fuel j i) := by
  intro fuel
  induction fuel with
  | zero => intro j i arr h; simpa only [clearRange] using h
  | succ fuel ih =>
    intro j i arr h
    simp only [clearRange]
    by_cases hji : j ≤ i
    · rw [if_pos hji]
      refine ih (j + 1) i _ (ArrOK_set af bf cf arr j _ h ?_ ?_)
      · exact mOK_vac af bf cf _ (by exact fun hx => Nat.zero_ne_one hx)
      · exact (mget_props af bf cf arr j h).2
    · rw [if_neg hji]; exact h

theorem clearToEnd_ok (af bf cf : List MElmnt) :
    ∀ (fuel : Nat) (i : Int) (arr : List Merge),
      ArrOK af bf cf arr → ArrOK af bf cf (clearToEnd arr fuel i) := by
  intro fuel
  induction fuel with
  | zero => intro i arr h; simpa only [clearToEnd] using h
  | succ fuel ih =>
    intro i arr h
    simp only [clearToEnd]
    by_cases hE : (mget arr i).type = MType.End
    · rw [if_pos hE]; exact h
    · rw [if_neg hE]
      refine ih (i + 1) _ (ArrOK_set af bf cf arr i _ h ?_ ?_)
      · exact mOK_vac af bf cf _ (by exact fun hx => Nat.zero_ne_one hx)
      · exact (mget_props af bf cf arr i h).2

/-- The backward conflict extension preserves the per-entry invariant
when the conflict marker `ic` is 2 or 3. -/
theorem backScan_ok (af bf cf : List MElmnt) (words : Bool) (ic : Nat) (hic : 1 < ic) :
    ∀ (fuel : Nat) (j : Int) (nl : Nat) (arr : List Merge),
      ArrOK af bf cf arr → ArrOK af bf cf (backScan af bf cf words ic fuel j nl arr) := by
  intro fuel
  induction fuel with
  | zero => intro j nl arr h; simpa only [backScan] using h
  | succ fuel ih =>
    intro j nl arr h
    simp only [backScan]
    by_cases hj : j < 0
    · rw [if_pos hj]; exact h
    rw [if_neg hj]
    set e := mget arr j with he
    obtain ⟨heok, hebnd⟩ := mget_props af bf cf arr j h
    rw [← he] at heok hebnd
    by_cases hx : (e.type = MType.Extraneous ∧ isHdr (fget bf e.b) = true)
    · rw [if_pos hx]; exact h
    rw [if_neg hx]
    by_cases h2 : 1 < e.in_conflict
    · rw [if_pos h2]; exact h
    rw [if_neg h2]
    set A1 := (if e.in_conflict = 0 then mset arr j { e with in_conflict := 1, lo := 0 }
      else arr) with hA1
    set m1 := mget A1 j with hm1
    set NL1 := (if m1.type = MType.Extraneous
      then nl + countNLbf bf m1.b (m1.bl.toNat + 1) m1.bl 0
      else nl) with hNL1
    have hbase : (m1.a = e.a ∧ m1.al = e.al) ∧ (m1.in_conflict = 1 →
        0 ≤ m1.lo ∧ m1.lo ≤ m1.al ∧ (0 < m1.lo →
          (fget af (m1.a + m1.lo - 1)).endsLine = true ∧
          is_cutpoint m1 af bf cf = false)) := by
      rw [hm1, hA1]
      by_cases hc : e.in_conflict = 0
      · rw [if_pos hc]
        rcases mget_set_self arr j { e with in_conflict := 1, lo := 0 } with hw | ⟨hs, hd⟩
        · rw [hw]
          refine ⟨⟨rfl, rfl⟩, fun _ => ⟨le_refl 0, ?_, fun hlo => absurd hlo (lt_irrefl 0)⟩⟩
          show (0 : Int) ≤ e.al
          exact hebnd.2.1
        · rw [hs]
          exact ⟨⟨rfl, rfl⟩, fun h1 => absurd h1 (by rw [hc]; decide)⟩
      · rw [if_neg hc, ← he]
        have hc1 : e.in_conflict = 1 := by omega
        obtain ⟨q1, q2, _, q4⟩ := heok hc1
        exact ⟨⟨rfl, rfl⟩, fun _ => ⟨q1, q2, q4⟩⟩
    have hbnd1 : mBounded af m1 := by
      refine ⟨?_, ?_, ?_⟩
      · rw [hbase.1.1]; exact hebnd.1
      · rw [hbase.1.2]; exact hebnd.2.1
      · rw [hbase.1.1, hbase.1.2]; exact hebnd.2.2
    have hA1v : ∀ v : Merge, mset A1 j v = mset arr j v := by
      intro v
      rw [hA1]
      by_cases hc : e.in_conflict = 0
      · rw [if_pos hc]
        simp [mset, List.set_set]
      · rw [if_neg hc]
    by_cases ht : (m1.type ≠ MType.Unchanged ∧ m1.type ≠ MType.Changed)
    · rw [if_pos ht, hA1v]
      refine ih (j - 1) NL1 _ (ArrOK_set af bf cf arr j _ h ?_ ?_)
      · refine mOK_vac af bf cf _ ?_
        show (if m1.type = MType.Conflict then 2 else ic) ≠ 1
        split
        · omega
        · omega
      · exact hbnd1
    · rw [if_neg ht]
      by_cases hwd : words = true
      · rw [if_pos hwd, hA1v]
        refine ArrOK_set af bf cf arr j _ h ?_ (by exact hbnd1)
        intro h1
        obtain ⟨q1, q2, q3⟩ := hbase.2 h1
        exact ⟨q1, q2, q2, fun hlo => ⟨(q3 hlo).1, (q3 hlo).2⟩⟩
      · rw [if_neg hwd]
        set SC := backKScan af m1.a m1.al (m1.al.toNat + 1) m1.al (m1.al + 1) NL1 with hSC
        set HI1 := (if 0 < SC.1 then SC.1
          else if j = 0 then SC.2.1
          else if is_cutpoint m1 af bf cf = true then 0
          else -1) with hHI1
        set HI2 := (if (0 < HI1 ∧ m1.type = MType.Changed ∧ is_cutpoint m1 af bf cf = false)
          then -1 else HI1) with hHI2
        by_cases hhi : (0 : Int) ≤ HI2
        · rw [if_pos hhi, hA1v]
          refine ArrOK_set af bf cf arr j _ h ?_ (by exact hbnd1)
          intro h1
          obtain ⟨q1, q2, q3⟩ := hbase.2 h1
          refine ⟨q1, q2, ?_, fun hlo => ⟨(q3 hlo).1, (q3 hlo).2⟩⟩
          show m1.lo ≤ HI2
          by_cases hlo : 0 < m1.lo
          · obtain ⟨hnl, hcut⟩ := q3 hlo
            have hge := backKScan_ge af m1.a m1.al m1.lo hlo q2 hbnd1.2.2 hnl
              (m1.al.toNat + 1) m1.al (m1.al + 1) NL1 (by omega) (le_refl m1.al)
              (Or.inl ⟨q2, Or.inl rfl⟩)
            rw [← hSC] at hge
            rw [hHI2] at hhi ⊢
            by_cases hC : (0 < HI1 ∧ m1.type = MType.Changed ∧
                is_cutpoint m1 af bf cf = false)
            · rw [if_pos hC] at hhi
              exact absurd hhi (by norm_num)
            · rw [if_neg hC] at hhi ⊢
              rw [hHI1] at hhi ⊢
              by_cases hs1 : 0 < SC.1
              · rw [if_pos hs1] at hhi ⊢
                exact hge.1 hs1
              · rw [if_neg hs1] at hhi ⊢
                by_cases hj0 : j = 0
                · rw [if_pos hj0] at hhi ⊢
                  exact hge.2 (by omega)
                · rw [if_neg hj0] at hhi ⊢
                  by_cases hcp : is_cutpoint m1 af bf cf = true
                  · rw [hcut] at hcp
                    exact absurd hcp (by decide)
                  · rw [if_neg hcp] at hhi
                    exact absurd hhi (by norm_num)
          · omega
        · rw [if_neg hhi, hA1v]
          refine ih (j - 1) SC.2.2 _ (ArrOK_set af bf cf arr j _ h ?_ ?_)
          · refine mOK_vac af bf cf _ ?_
            show ic ≠ 1
            omega
          · exact hbnd1

/-- The forward conflict extension preserves the per-entry invariant
when the conflict marker `ic` is 2 or 3. -/
theorem fwdScan_ok (af bf cf : List MElmnt) (words : Bool) (ic : Nat) (hic : 1 < ic) :
    ∀ (fuel : Nat) (j : Int) (nl : Nat) (arr : List Merge),
      ArrOK af bf cf arr → ArrOK af bf cf (fwdScan af bf cf words ic fuel j nl arr).1 := by
  intro fuel
  induction fuel with
  | zero => intro j nl arr h; simpa only [fwdScan] using h
  | succ fuel ih =>
    intro j nl arr h
    simp only [fwdScan]
    set e := mget arr j with he
    obtain ⟨heok, hebnd⟩ := mget_props af bf cf arr j h
    rw [← he] at heok hebnd
    by_cases hE : e.type = MType.End
    · rw [if_pos hE]; exact h
    rw [if_neg hE]
    set NL1 := (if e.type = MType.Extraneous
      then nl + countNLbf bf e.b (e.bl.toNat + 1) e.bl 0
      else nl) with hNL1
    by_cases ht : (e.type ≠ MType.Unchanged ∧ e.type ≠ MType.Changed)
    · rw [if_pos ht]
      refine ih (j + 1) NL1 _ (ArrOK_set af bf cf arr j _ h ?_ ?_)
      · refine mOK_vac af bf cf _ ?_
        show (if e.type = MType.Conflict then 2 else ic) ≠ 1
        split
        · omega
        · omega
      · exact hebnd
    · rw [if_neg ht]
      by_cases hwd : words = true
      · rw [if_pos hwd]
        refine ArrOK_set af bf cf arr j _ h ?_ (by exact hebnd)
        intro _
        refine ⟨le_refl 0, ?_, ?_, fun hlo => absurd hlo (lt_irrefl 0)⟩
        · show (0 : Int) ≤ e.al
          exact hebnd.2.1
        · show (0 : Int) ≤ e.al
          exact hebnd.2.1
      · rw [if_neg hwd]
        set mnx := mget arr (j + 1) with hmnx
        set SC := fwdKScan af e.a e.al (e.al.toNat + 1) 0 (-1) NL1 with hSC
        set K3 := (if (SC.2.2 < 3 ∧ mnx.type = MType.End) then SC.2.1 else SC.1) with hK3
        set K4 := (if (0 ≤ SC.2.1 ∧ mnx.type = MType.Unmatched ∧
            3 < countNLcap af mnx.a mnx.al (mnx.al.toNat + 1) 0 0) then SC.2.1 else K3) with hK4
        set SR := (if is_cutpoint e af bf cf = true then ((0 : Int), NL1)
          else (if K4 < e.al then K4 + 1 else e.al + 1, SC.2.2)) with hSR
        set LO2 := (if (SR.1 ≤ e.al + 1 ∧ e.type = MType.Changed ∧
            is_cutpoint mnx af bf cf = false) then e.al + 1 else SR.1) with hLO2
        by_cases hbrk : LO2 < e.al + 1
        · rw [if_pos hbrk]
          refine ArrOK_set af bf cf arr j _ h ?_ (by exact hebnd)
          intro _
          show 0 ≤ LO2 ∧ LO2 ≤ e.al ∧ LO2 ≤ e.al ∧
            (0 < LO2 → (fget af (e.a + LO2 - 1)).endsLine = true ∧
              is_cutpoint e af bf cf = false)
          by_cases hadj : (SR.1 ≤ e.al + 1 ∧ e.type = MType.Changed ∧
              is_cutpoint mnx af bf cf = false)
          · rw [hLO2, if_pos hadj] at hbrk
            exact absurd hbrk (lt_irrefl _)
          · have hLO2s : LO2 = SR.1 := by rw [hLO2, if_neg hadj]
            by_cases hcut : is_cutpoint e af bf cf = true
            · have hlo0 : LO2 = 0 := by rw [hLO2s, hSR, if_pos hcut]
              rw [hlo0]
              exact ⟨le_refl 0, hebnd.2.1, hebnd.2.1, fun hlo => absurd hlo (lt_irrefl 0)⟩
            · have hcutF : is_cutpoint e af bf cf = false := Bool.eq_false_iff.mpr hcut
              have hfk := fwdKScan_inv af e.a e.al (e.al.toNat + 1) 0 (-1) NL1
                (le_refl 0) (by omega) (Or.inl rfl)
              rw [← hSC] at hfk
              obtain ⟨g1, g2, g3⟩ := hfk
              have hsr1 : SR.1 = if K4 < e.al then K4 + 1 else e.al + 1 := by
                rw [hSR, if_neg hcut]
              by_cases hk4 : K4 < e.al
              · have hlo2 : LO2 = K4 + 1 := by rw [hLO2s, hsr1, if_pos hk4]
                have hk4ge : -1 ≤ K4 := by
                  rw [hK4]
                  split
                  · exact g3.2
                  · rw [hK3]
                    split
                    · exact g3.2
                    · omega
                have hknl : 0 ≤ K4 → K4 < e.al → (fget af (e.a + K4)).endsLine = true := by
                  rw [hK4]
                  split
                  · intro h0 _
                    exact (g1 h0).1
                  · rw [hK3]
                    split
                    · intro h0 _
                      exact (g1 h0).1
                    · intro _ hlt
                      exact (g2 hlt).2
                refine ⟨by omega, by omega, by omega, fun hlo => ⟨?_, hcutF⟩⟩
                have hidx : e.a + LO2 - 1 = e.a + K4 := by omega
                rw [hidx]
                exact hknl (by omega) hk4
              · have : LO2 = e.al + 1 := by rw [hLO2s, hsr1, if_neg hk4]
                omega
        · rw [if_neg hbrk]
          refine ih (j + 1) SR.2 _ (ArrOK_set af bf cf arr j _ h ?_ ?_)
          · refine mOK_vac af bf cf _ ?_
            show ic ≠ 1
            omega
          · exact hebnd

set_option maxHeartbeats 4000000 in
/-- The main isolate_conflicts loop preserves the per-entry invariant. -/
theorem isoLoop_ok (af bf cf : List MElmnt) (words sw : Bool) :
    ∀ (fuel : Nat) (i : Int) (ch um ex : Nat) (iw : Bool) (wg : Nat) (arr : List Merge)
      (res : List Merge × Nat),
      ArrOK af bf cf arr →
      isoLoop af bf cf words sw fuel i ch um ex iw wg arr = some res →
      ArrOK af bf cf res.1 := by
  intro fuel
  induction fuel with
  | zero =>
    intro i ch um ex iw wg arr res h hr
    simp only [isoLoop] at hr
    exact Option.noConfusion hr
  | succ fuel ih =>
    intro i ch um ex iw wg arr res h hr
    simp only [isoLoop] at hr
    set e := mget arr i with he
    obtain ⟨heok, hebnd⟩ := mget_props af bf cf arr i h
    rw [← he] at heok hebnd
    set CH := (if e.type = MType.Changed then 3 else ch) with hCH
    set UM := (if e.type = MType.Unmatched then 3 else um) with hUM
    set EX := (if (e.type = MType.Extraneous ∧ isHdr (fget bf e.b) = false) then 3 else ex)
      with hEX
    set IW := (if (e.type ≠ MType.Unchanged ∧ CH ≠ 0 ∧ (UM ≠ 0 ∨ EX ≠ 0)) then true else false)
      with hIW
    set WG := (if (IW = true ∧ iw = false) then wg + 1 else wg) with hWG
    set IC := ((if e.type = MType.Conflict then 2 else 3 : Nat)) with hIC
    set AA := mset arr i { e with in_conflict := IC } with hAA
    set AB := backScan af bf cf words IC (i.toNat + 1) (i - 1) 0 AA with hAB
    set FW := fwdScan af bf cf words IC (AB.length + 1) (i + 1) 0 AB with hFW
    set I1 := (if (mget FW.1 (FW.2 - 1)).in_conflict = 1 then FW.2 - 1 else FW.2) with hI1
    set FA := faScan FW.1 (I1.toNat + 1) (I1 - 1) with hFA
    set J3 := ((if FA.1 < 0 then 0 else FA.1 : Int)) with hJ3
    set ST := (if (mget FW.1 J3).in_conflict = 1 then
        (mset FW.1 J3 { (mget FW.1 J3) with
          hi := (mget FW.1 J3).al
          in_conflict := if (mget FW.1 J3).lo = 0 then 0 else 1 }, J3 + 1)
      else (FW.1, J3)) with hST
    set AF := (if (mget FW.1 FW.2).type = MType.Changed then FW.1
      else if FA.2 = true then FW.1
      else if (0 ≤ FA.1 ∧ (mget FW.1 FA.1).type = MType.Changed) then FW.1
      else clearRange ST.1 ((I1 - ST.2).toNat + 1) ST.2 I1) with hAF
    have hic : 1 < IC := by
      rw [hIC]
      split
      · omega
      · omega
    have hAAok : ArrOK af bf cf AA := by
      rw [hAA]
      refine ArrOK_set af bf cf arr i _ h ?_ (by exact hebnd)
      refine mOK_vac af bf cf _ ?_
      show IC ≠ 1
      omega
    have hABok : ArrOK af bf cf AB := by
      rw [hAB]
      exact backScan_ok af bf cf words IC hic _ _ _ _ hAAok
    have hFW1ok : ArrOK af bf cf FW.1 := by
      rw [hFW]
      exact fwdScan_ok af bf cf words IC hic _ _ _ _ hABok
    have hAFok : ArrOK af bf cf AF := by
      rw [hAF]
      split
      · exact hFW1ok
      split
      · exact hFW1ok
      split
      · exact hFW1ok
      apply clearRange_ok
      rw [hST]
      split
      · rename_i hstep
        show ArrOK af bf cf (mset FW.1 J3 _)
        obtain ⟨hok3, hbnd3⟩ := mget_props af bf cf FW.1 J3 hFW1ok
        refine ArrOK_set af bf cf FW.1 J3 _ hFW1ok ?_ (by exact hbnd3)
        by_cases hl0 : (mget FW.1 J3).lo = 0
        · refine mOK_vac af bf cf _ ?_
          show (if (mget FW.1 J3).lo = 0 then 0 else 1) ≠ 1
          rw [if_pos hl0]
          omega
        · intro _
          obtain ⟨q1, q2, q3, q4⟩ := hok3 hstep
          exact ⟨q1, q2, q2, fun hlo => ⟨(q4 hlo).1, (q4 hlo).2⟩⟩
      · exact hFW1ok
    by_cases hE : e.type = MType.End
    · rw [if_pos hE] at hr
      injection hr with h1
      rw [← h1]
      exact h
    rw [if_neg hE] at hr
    by_cases hcf : (e.type = MType.Conflict ∨ (sw = true ∧ IW = true))
    · rw [if_pos hcf] at hr
      by_cases hE2 : (mget AF I1).type = MType.End
      · rw [if_pos hE2] at hr
        injection hr with h1
        rw [← h1]
        exact hAFok
      · rw [if_neg hE2] at hr
        exact ih (I1 + 1) _ _ _ IW WG AF res hAFok hr
    · rw [if_neg hcf] at hr
      exact ih (i + 1) _ _ _ IW WG arr res h hr

/-- isolate_conflicts preserves the per-entry invariant end to end. -/
theorem isolate_conflicts_ok (af bf cf : List MElmnt) (words sw : Bool)
    (arr : List Merge) (fuel : Nat) (arr1 : List Merge) (cnt wig : Nat)
    (h : ArrOK af bf cf arr)
    (hr : isolate_conflicts af bf cf words sw arr fuel = some (arr1, cnt, wig)) :
    ArrOK af bf cf arr1 := by
  rw [isolate_conflicts] at hr
  cases hiso : isoLoop af bf cf words sw fuel 0 0 0 0 false 0
      (clearToEnd arr (arr.length + 1) 0) with
  | none => rw [hiso] at hr; exact Option.noConfusion hr
  | some p =>
    obtain ⟨p1, p2⟩ := p
    rw [hiso] at hr
    dsimp only at hr
    have hp : ArrOK af bf cf p1 :=
      isoLoop_ok af bf cf words sw fuel 0 0 0 0 false 0 _ (p1, p2)
        (clearToEnd_ok af bf cf (arr.length + 1) 0 arr h) hiso
    cases hcr : countRegions p1 (p1.length + 1) 0 0 0 with
    | none => rw [hcr] at hr; exact Option.noConfusion hr
    | some q =>
      obtain ⟨q1, q2⟩ := q
      rw [hcr] at hr
      dsimp only at hr
      injection hr with h1
      have h2 : p1 = arr1 := congrArg Prod.fst h1
      rw [← h2]
      exact hp

theorem merge_some_fst_ic0 {S m : Merge} {x y : Option Nat} {u v : Nat}
    (h : (some (S, x, u) : Option (Merge × Option Nat × Nat)) = some (m, y, v))
    (hS : S.in_conflict = 0) : m.in_conflict = 0 := by
  injection h with h1
  have h2 : S = m := congrArg Prod.fst h1
  rw [← h2]
  exact hS

/-- Every entry make_merger records has `in_conflict = 0` (merge2.c
line 477). -/
theorem mergeEntry_ic0 (af cf : List MElmnt) (cs1 cs2 : List Csl) (ia : Bool) (st : MSt)
    (m : Merge) (hc : Option Nat) (ig : Nat)
    (h : mergeEntry af cf cs1 cs2 ia st = some (m, hc, ig)) : m.in_conflict = 0 := by
  simp only [mergeEntry] at h
  split at h
  · split at h
    · exact merge_some_fst_ic0 h rfl
    · split at h
      · exact Option.noConfusion h
      · split at h
        · exact Option.noConfusion h
        · exact merge_some_fst_ic0 h rfl
  · split at h
    · exact merge_some_fst_ic0 h rfl
    · split at h
      · exact merge_some_fst_ic0 h rfl
      · split at h
        · exact merge_some_fst_ic0 h rfl
        · split at h
          · exact merge_some_fst_ic0 h rfl
          · exact merge_some_fst_ic0 h rfl

theorem mergeStep_ic0 (af bf cf : List MElmnt) (cs1 cs2 : List Csl) (ia : Bool)
    (st0 : MSt) (m : Merge) (st' : MSt) (brk : Bool)
    (h : mergeStep af bf cf cs1 cs2 ia st0 = some (m, st', brk)) : m.in_conflict = 0 := by
  simp only [mergeStep] at h
  cases hh : hdrUpd bf cs2 st0 with
  | none => rw [hh] at h; exact Option.noConfusion h
  | some st =>
    rw [hh] at h
    dsimp only at h
    cases he : mergeEntry af cf cs1 cs2 ia st with
    | none => rw [he] at h; exact Option.noConfusion h
    | some t =>
      obtain ⟨m1, hc, ig⟩ := t
      rw [he] at h
      dsimp only at h
      cases ht : mergeTail cs1 cs2 m1.al m1.bl m1.cl
          { st with header_checked := hc, ignored := ig } with
      | none => rw [ht] at h; exact Option.noConfusion h
      | some p =>
        obtain ⟨st2, brk2⟩ := p
        rw [ht] at h
        dsimp only at h
        injection h with h1
        have h2 : m1 = m := congrArg Prod.fst h1
        rw [← h2]
        exact mergeEntry_ic0 af cf cs1 cs2 ia st m1 hc ig he

/-- Every entry of the merge stream make_merger builds, including the
End record, has `in_conflict = 0`: the first hypothesis of the C7
theorem holds of every make_merger output. -/
theorem mergeLoop_in_conflict0 (af bf cf : List MElmnt) (cs1 cs2 : List Csl) (ia : Bool) :
    ∀ (fuel : Nat) (st : MSt) (ms : List Merge) (endr : Merge) (ig : Nat),
      mergeLoop af bf cf cs1 cs2 ia fuel st = some (ms, endr, ig) →
      (∀ m ∈ ms, m.in_conflict = 0) ∧ endr.in_conflict = 0 := by
  intro fuel
  induction fuel with
  | zero =>
    intro st ms endr ig h
    simp only [mergeLoop] at h
    exact Option.noConfusion h
  | succ fuel ih =>
    intro st ms endr ig h
    simp only [mergeLoop] at h
    cases hs : mergeStep af bf cf cs1 cs2 ia st with
    | none => rw [hs] at h; exact Option.noConfusion h
    | some t =>
      obtain ⟨m1, st1, brk⟩ := t
      rw [hs] at h
      dsimp only at h
      by_cases hbk : brk = true
      · rw [hbk, if_pos rfl] at h
        injection h with h1
        have hms : [m1] = ms := congrArg Prod.fst h1
        have hend : mergeEndRec st1 = endr := congrArg (fun p => p.2.1) h1
        constructor
        · intro m hm
          rw [← hms] at hm
          simp only [List.mem_singleton] at hm
          rw [hm]
          exact mergeStep_ic0 af bf cf cs1 cs2 ia st m1 st1 brk hs
        · rw [← hend]; rfl
      · rw [if_neg hbk] at h
        cases hl : mergeLoop af bf cf cs1 cs2 ia fuel st1 with
        | none => rw [hl] at h; exact Option.noConfusion h
        | some t2 =>
          obtain ⟨ms2, e2, ig2⟩ := t2
          rw [hl] at h
          dsimp only at h
          injection h with h1
          have hms : m1 :: ms2 = ms := congrArg Prod.fst h1
          have hend : e2 = endr := congrArg (fun p => p.2.1) h1
          obtain ⟨ih1, ih2⟩ := ih st1 ms2 e2 ig2 hl
          constructor
          · intro m hm
            rw [← hms] at hm
            rcases List.mem_cons.mp hm with rfl | hm2
            · exact mergeStep_ic0 af bf cf cs1 cs2 ia st m st1 brk hs
            · exact ih1 m hm2
          · rw [← hend]; exact ih2

/-- C7: after conflict isolation, every merge-stream section whose
in_conflict field equals 1 (a conflict border) satisfies lo ≤ hi, in
both word and line mode.  The input merge stream has the shape
make_merger produces: every entry starts with `in_conflict = 0`
(merge2.c line 477, proved of the merge loop in
`mergeLoop_in_conflict0`) and every section's A-range lies inside the
orig file. -/
theorem C7_theorem (af bf cf : List MElmnt) (words show_wiggles : Bool)
    (arr : List Merge) (fuel : Nat) (arr1 : List Merge) (cnt wig : Nat)
    (h0 : ∀ m ∈ arr, m.in_conflict = 0)
    (hb : ∀ m ∈ arr, 0 ≤ m.a ∧ 0 ≤ m.al ∧ m.a + m.al ≤ (af.length : Int))
    (hr : isolate_conflicts af bf cf words show_wiggles arr fuel = some (arr1, cnt, wig)) :
    ∀ m ∈ arr1, m.in_conflict = 1 → m.lo ≤ m.hi := by
  have hok : ArrOK af bf cf arr := fun m hm =>
    ⟨mOK_vac af bf cf m (by rw [h0 m hm]; decide), hb m hm⟩
  have h1 := isolate_conflicts_ok af bf cf words show_wiggles arr fuel arr1 cnt wig hok hr
  intro m hm hic
  exact ((h1 m hm).1 hic).2.2.1

/-- C7 witness: a concrete Conflict bordered by an Unchanged section;
isolate_conflicts marks the border `in_conflict = 1` with
`lo = 0 ≤ hi = 1`, and the theorem applies to the run. -/
theorem C7_witness :
    (∀ m ∈ c7arr, m.in_conflict = 0) ∧
    (∀ m ∈ c7arr, 0 ≤ m.a ∧ 0 ≤ m.al ∧ m.a + m.al ≤ (c7af.length : Int)) ∧
    (∀ m ∈ c7res, m.in_conflict = 1 → m.lo ≤ m.hi) :=
  ⟨by decide, by decide,
    C7_theorem c7af c7bf c7cf false false c7arr 10 c7res 1 0 (by decide) (by decide)
      (by decide)⟩

end Wiggle
